import Mathlib

/-!
Verification of the node I/O and keyframe subsystem of the Olive video
editor, embedded from `src/nodes/nodeio.cpp`.

The C++ class `NodeIO` (the spec's "Port") is embedded as a Lean structure;
a document's ports live in a `GraphState` that assigns a port record to every
numeric port id.  `NodeEdge` shared pointers are modelled by numeric edge ids
allocated from a counter (`nextEdge`), so that `QVector::removeAll` on a
shared pointer becomes removal of an id.  Qt signal emission of
`EdgesChanged` is modelled by an append-only log (`notes`) of the ids of the
ports whose signal was emitted.  The global undo stack is modelled by an
explicit journal, a list of pushed transactions, each transaction being the
list of commands appended to one `ComboAction`.  `Q_ASSERT` failure is
modelled as `none`.  Machine `long` arithmetic is modelled on `ℤ`; the
`LONG_MIN` / `LONG_MAX` sentinels of the keyframe searches are kept as
explicit constants.

Functions of `EffectField` and of the undo command classes that
`src/nodes/nodeio.cpp` calls but whose definitions are not part of the
sources (`EffectField::SetValueAt`, `EffectField::GetValueAt`,
`EffectField::PrepareDataForKeyframing`, `KeyframeDelete`,
`SetIsKeyframing`) are modelled from the spec; each such definition carries
a doc comment saying so.
-/

/-- The `olive::nodes::DataType` value `kInvalid` (the "no type" default that
`NodeIO`'s constructor assigns to `output_type_`); data types are numbered. -/
def kInvalid : ℕ := 0

/-- One keyframe of an `EffectField`: a time (clip-local frame number) and the
stored value (variant values are modelled as integers). -/
structure EffectKeyframe where
  time : ℤ
  value : ℤ
  deriving DecidableEq, Inhabited

/-- An `EffectField`: the static (non-keyframed) value, the keyframe list and
the enabled flag. -/
structure EffectField where
  static_value : ℤ
  keyframes : List EffectKeyframe
  enabled : Bool
  deriving DecidableEq, Inhabited

/-- A `NodeIO` ("Port"): accepted input data types, output data type,
the `keyframable_` and `keyframing_` flags, the owned fields, and
`node_edges_` as the list of ids of the incident edges. -/
structure NodeIO where
  accepted_inputs : List ℕ
  output_type : ℕ
  keyframable : Bool
  keyframing : Bool
  fields : List EffectField
  node_edges : List ℕ
  deriving DecidableEq, Inhabited

/-- `NodeIO::IsNodeInput`: input-classified iff some accepted input type was
added (`!accepted_inputs_.isEmpty()`). -/
def IsNodeInput (p : NodeIO) : Bool :=
  !p.accepted_inputs.isEmpty

/-- `NodeIO::IsNodeOutput`: output-classified iff the output type was set
(`output_type_ != olive::nodes::kInvalid`). -/
def IsNodeOutput (p : NodeIO) : Bool :=
  p.output_type != kInvalid

/-- `NodeIO::AddAcceptedNodeInput`: asserts `output_type_ == kInvalid`, then
appends the type to the accepted list. -/
def AddAcceptedNodeInput (p : NodeIO) (t : ℕ) : Option NodeIO :=
  if p.output_type = kInvalid then
    some { p with accepted_inputs := p.accepted_inputs ++ [t] }
  else none

/-- `NodeIO::SetOutputDataType`: asserts `accepted_inputs_.isEmpty()`, then
sets the output type. -/
def SetOutputDataType (p : NodeIO) (t : ℕ) : Option NodeIO :=
  if p.accepted_inputs.isEmpty then
    some { p with output_type := t }
  else none

/-- A `NodeEdge`: the ids of its output port and its input port. -/
structure NodeEdge where
  output : ℕ
  input : ℕ
  deriving DecidableEq, Inhabited

/-- The state of a document's port graph: the port record of every port id,
the edge data of every allocated edge id, the allocation counter for edge
ids, and the log of ports on which `EdgesChanged` was emitted. -/
structure GraphState where
  ports : ℕ → NodeIO
  edges : ℕ → NodeEdge
  nextEdge : ℕ
  notes : List ℕ

instance : Inhabited GraphState :=
  ⟨⟨fun _ => default, fun _ => default, 0, []⟩⟩

/-- Replace the port record stored at id `pid` by `f` of it. -/
def setPortFn (s : GraphState) (pid : ℕ) (f : NodeIO → NodeIO) : GraphState :=
  { s with ports := fun j => if j = pid then f (s.ports j) else s.ports j }

/-- `NodeIO::DisconnectEdge`: `removeAll` of the edge from the `node_edges_`
of `edge->output()` and of `edge->input()`, then `emit output->EdgesChanged()`
(only the output port's signal is emitted). -/
def DisconnectEdge (s : GraphState) (e : ℕ) : GraphState :=
  let o := (s.edges e).output
  let i := (s.edges e).input
  let s1 := setPortFn s o (fun p => { p with node_edges := p.node_edges.filter (fun x => x != e) })
  let s2 := setPortFn s1 i (fun p => { p with node_edges := p.node_edges.filter (fun x => x != e) })
  { s2 with notes := s2.notes ++ [o] }

/-- The tail of `NodeIO::ConnectEdge` after the swap normalization and the
optional disconnect: `o` is the argument left in the `output` variable and
`i` the one left in `input`.  A fresh edge `⟨o, i⟩` is allocated
(`std::make_shared`), appended to both ports' `node_edges_`, and
`emit output->EdgesChanged()` is performed (only the output port's signal). -/
def connectFresh (s : GraphState) (o i : ℕ) : GraphState :=
  let eid := s.nextEdge
  let s2 : GraphState :=
    { s with edges := fun j => if j = eid then ⟨o, i⟩ else s.edges j, nextEdge := eid + 1 }
  let s3 := setPortFn s2 o (fun p => { p with node_edges := p.node_edges ++ [eid] })
  let s4 := setPortFn s3 i (fun p => { p with node_edges := p.node_edges ++ [eid] })
  { s4 with notes := s4.notes ++ [o] }

/-- The normalized connect body: if `input`'s edge list is non-empty its
first edge is disconnected, then the fresh edge is created. -/
def connectNormalized (s : GraphState) (o i : ℕ) : GraphState :=
  match (s.ports i).node_edges with
  | [] => connectFresh s o i
  | e :: _ => connectFresh (DisconnectEdge s e) o i

/-- `NodeIO::ConnectEdge`: asserts
`output->IsNodeInput() != input->IsNodeInput()` (modelled as `none` on
failure), swaps the two arguments if `input->IsNodeOutput()`, and runs the
normalized body. -/
def ConnectEdge (s : GraphState) (output input : ℕ) : Option GraphState :=
  if IsNodeInput (s.ports output) = IsNodeInput (s.ports input) then none
  else if IsNodeOutput (s.ports input) then some (connectNormalized s input output)
  else some (connectNormalized s output input)

/-- One call of the connection protocol: `ConnectEdge` on two port ids or
`DisconnectEdge` on an edge id. -/
inductive GraphOp where
  | connect (a b : ℕ)
  | disconnect (e : ℕ)

/-- Execute one call; a failed `Q_ASSERT` aborts the program, so the state is
not changed past that point. -/
def stepGraph (s : GraphState) : GraphOp → GraphState
  | .connect a b => (ConnectEdge s a b).getD s
  | .disconnect e => DisconnectEdge s e

/-- Execute a sequence of `ConnectEdge` / `DisconnectEdge` calls. -/
def runGraph (s : GraphState) (ops : List GraphOp) : GraphState :=
  ops.foldl stepGraph s

/-- A port that is input-classified and not output-classified. -/
def InOnly (p : NodeIO) : Prop :=
  IsNodeInput p = true ∧ IsNodeOutput p = false

/-- A port that is output-classified and not input-classified. -/
def OutOnly (p : NodeIO) : Prop :=
  IsNodeOutput p = true ∧ IsNodeInput p = false

/-- The spec's precondition on a `ConnectEdge` call: one argument is
input-classified and the other output-classified. -/
def ProperArgs (s : GraphState) (a b : ℕ) : Prop :=
  (OutOnly (s.ports a) ∧ InOnly (s.ports b)) ∨ (InOnly (s.ports a) ∧ OutOnly (s.ports b))

/-- Graph well-formedness: every input-classified port has at most one
incident edge, and every edge id found in a port's `node_edges_` is an
allocated edge having that port as one of its endpoints. -/
def GraphInv (s : GraphState) : Prop :=
  (∀ pid, IsNodeInput (s.ports pid) = true → (s.ports pid).node_edges.length ≤ 1) ∧
  (∀ pid e, e ∈ (s.ports pid).node_edges →
    ((s.edges e).output = pid ∨ (s.edges e).input = pid) ∧ e < s.nextEdge)

/-- The edge id appears in no port's edge list. -/
def EdgeGone (s : GraphState) (e : ℕ) : Prop :=
  ∀ pid, e ∉ (s.ports pid).node_edges

/-- A freshly constructed port: unclassified, keyframable, not keyframing. -/
def blankPort : NodeIO :=
  ⟨[], kInvalid, true, false, [], []⟩

/-- Sample port assignment: port 0 is input-classified (accepts type 1),
ports 1 and 2 are output-classified (produce type 1), all others are
unclassified. -/
def samplePorts : ℕ → NodeIO := fun pid =>
  if pid = 0 then { blankPort with accepted_inputs := [1] }
  else if pid = 1 then { blankPort with output_type := 1 }
  else if pid = 2 then { blankPort with output_type := 1 }
  else blankPort

/-- Sample graph state with no edges. -/
def sampleState : GraphState :=
  ⟨samplePorts, fun _ => default, 0, []⟩

/-- Sample graph state in which edge 0 already connects output port 1 to
input port 0. -/
def sampleState2 : GraphState :=
  ⟨fun pid =>
    if pid = 0 then { blankPort with accepted_inputs := [1], node_edges := [0] }
    else if pid = 1 then { blankPort with output_type := 1, node_edges := [0] }
    else if pid = 2 then { blankPort with output_type := 1 }
    else blankPort,
   fun _ => ⟨1, 0⟩, 1, []⟩

/-- **C10**: for two ports satisfying the connect precondition (one
output-classified, one input-classified), `ConnectEdge` is symmetric in its
two arguments: the swap normalization makes both argument orders produce
identical resulting states, including the edge's endpoints, both edge-set
updates and the emitted notifications. -/
theorem connect_edge_symmetric (s : GraphState) (a b : ℕ)
    (ha : OutOnly (s.ports a)) (hb : InOnly (s.ports b)) :
    ConnectEdge s a b = ConnectEdge s b a := by
  obtain ⟨hao, hai⟩ := ha
  obtain ⟨hbi, hbo⟩ := hb
  simp [ConnectEdge, hao, hai, hbi, hbo]

/-- Witness for C10 at the sample state: output port 1 and input port 0. -/
theorem connect_edge_symmetric_witness :
    OutOnly (sampleState.ports 1) ∧ InOnly (sampleState.ports 0) ∧
    ConnectEdge sampleState 1 0 = ConnectEdge sampleState 0 1 :=
  ⟨⟨rfl, rfl⟩, ⟨rfl, rfl⟩, connect_edge_symmetric sampleState 1 0 ⟨rfl, rfl⟩ ⟨rfl, rfl⟩⟩

/-- Disconnecting an edge does not change any port's accepted input types. -/
theorem disconnectEdge_ports_accepted (s : GraphState) (e j : ℕ) :
    ((DisconnectEdge s e).ports j).accepted_inputs = (s.ports j).accepted_inputs := by
  simp only [DisconnectEdge, setPortFn]
  split_ifs <;> rfl

/-- Disconnecting an edge does not change any port's output type. -/
theorem disconnectEdge_ports_output_type (s : GraphState) (e j : ℕ) :
    ((DisconnectEdge s e).ports j).output_type = (s.ports j).output_type := by
  simp only [DisconnectEdge, setPortFn]
  split_ifs <;> rfl

/-- Disconnecting an edge leaves the edge table unchanged. -/
theorem disconnectEdge_edges (s : GraphState) (e : ℕ) :
    (DisconnectEdge s e).edges = s.edges := rfl

/-- Disconnecting an edge leaves the allocation counter unchanged. -/
theorem disconnectEdge_nextEdge (s : GraphState) (e : ℕ) :
    (DisconnectEdge s e).nextEdge = s.nextEdge := rfl

/-- Disconnecting an edge emits `EdgesChanged` exactly once, on the edge's
output port. -/
theorem disconnectEdge_notes (s : GraphState) (e : ℕ) :
    (DisconnectEdge s e).notes = s.notes ++ [(s.edges e).output] := rfl

/-- The fresh-edge phase does not change any port's accepted input types. -/
theorem connectFresh_ports_accepted (s : GraphState) (o i j : ℕ) :
    ((connectFresh s o i).ports j).accepted_inputs = (s.ports j).accepted_inputs := by
  simp only [connectFresh, setPortFn]
  split_ifs <;> rfl

/-- The fresh-edge phase does not change any port's output type. -/
theorem connectFresh_ports_output_type (s : GraphState) (o i j : ℕ) :
    ((connectFresh s o i).ports j).output_type = (s.ports j).output_type := by
  simp only [connectFresh, setPortFn]
  split_ifs <;> rfl

/-- The fresh-edge phase does not change a port's fields. -/
theorem connectFresh_ports_fields (s : GraphState) (o i j : ℕ) :
    ((connectFresh s o i).ports j).fields = (s.ports j).fields := by
  simp only [connectFresh, setPortFn]
  split_ifs <;> rfl

/-- The fresh-edge phase allocates exactly one new edge id. -/
theorem connectFresh_nextEdge (s : GraphState) (o i : ℕ) :
    (connectFresh s o i).nextEdge = s.nextEdge + 1 := rfl

/-- The edge table of the fresh-edge phase: the fresh id maps to `⟨o, i⟩`. -/
theorem connectFresh_edges (s : GraphState) (o i j : ℕ) :
    (connectFresh s o i).edges j = if j = s.nextEdge then ⟨o, i⟩ else s.edges j := rfl

/-- The fresh-edge phase emits exactly one `EdgesChanged`, on the output
port. -/
theorem connectFresh_notes (s : GraphState) (o i : ℕ) :
    (connectFresh s o i).notes = s.notes ++ [o] := rfl

/-- The edge lists after the fresh-edge phase: the fresh id is appended to
the two endpoints' lists, all other lists are unchanged. -/
theorem connectFresh_node_edges (s : GraphState) (o i j : ℕ) (hoi : o ≠ i) :
    ((connectFresh s o i).ports j).node_edges =
      if j = o ∨ j = i then (s.ports j).node_edges ++ [s.nextEdge]
      else (s.ports j).node_edges := by
  simp only [connectFresh, setPortFn]
  by_cases h1 : j = i
  · subst h1
    have h2 : ¬ j = o := fun h => hoi (h.symm)
    simp [h2]
  · by_cases h2 : j = o
    · subst h2
      simp [h1]
    · simp [h1, h2]

/-- The normalized connect body does not change any port's accepted input
types. -/
theorem connectNormalized_ports_accepted (s : GraphState) (o i j : ℕ) :
    ((connectNormalized s o i).ports j).accepted_inputs = (s.ports j).accepted_inputs := by
  unfold connectNormalized
  cases h : (s.ports i).node_edges with
  | nil => exact connectFresh_ports_accepted s o i j
  | cons e rest =>
    rw [connectFresh_ports_accepted, disconnectEdge_ports_accepted]

/-- The normalized connect body does not change any port's output type. -/
theorem connectNormalized_ports_output_type (s : GraphState) (o i j : ℕ) :
    ((connectNormalized s o i).ports j).output_type = (s.ports j).output_type := by
  unfold connectNormalized
  cases h : (s.ports i).node_edges with
  | nil => exact connectFresh_ports_output_type s o i j
  | cons e rest =>
    rw [connectFresh_ports_output_type, disconnectEdge_ports_output_type]

/-- The normalized connect body allocates exactly one new edge id. -/
theorem connectNormalized_nextEdge (s : GraphState) (o i : ℕ) :
    (connectNormalized s o i).nextEdge = s.nextEdge + 1 := by
  unfold connectNormalized
  cases h : (s.ports i).node_edges <;> rfl

/-- The edge the normalized connect body stores at the fresh id is `⟨o, i⟩`. -/
theorem connectNormalized_edges_at (s : GraphState) (o i : ℕ) :
    (connectNormalized s o i).edges s.nextEdge = ⟨o, i⟩ := by
  unfold connectNormalized
  cases h : (s.ports i).node_edges with
  | nil => simp [connectFresh_edges]
  | cons e rest => simp [connectFresh_edges, disconnectEdge_nextEdge, disconnectEdge_edges]

/-- Classification is stable under the connect body: `IsNodeInput`. -/
theorem connectNormalized_isNodeInput (s : GraphState) (o i j : ℕ) :
    IsNodeInput ((connectNormalized s o i).ports j) = IsNodeInput (s.ports j) := by
  simp [IsNodeInput, connectNormalized_ports_accepted]

/-- Classification is stable under the connect body: `IsNodeOutput`. -/
theorem connectNormalized_isNodeOutput (s : GraphState) (o i j : ℕ) :
    IsNodeOutput ((connectNormalized s o i).ports j) = IsNodeOutput (s.ports j) := by
  simp [IsNodeOutput, connectNormalized_ports_output_type]

/-- If the first argument is output-classified only and the second
input-classified only, no swap happens. -/
theorem connectEdge_eq_out_in (s : GraphState) (a b : ℕ)
    (ha : OutOnly (s.ports a)) (hb : InOnly (s.ports b)) :
    ConnectEdge s a b = some (connectNormalized s a b) := by
  obtain ⟨hao, hai⟩ := ha
  obtain ⟨hbi, hbo⟩ := hb
  simp [ConnectEdge, hao, hai, hbi, hbo]

/-- If the first argument is input-classified only and the second
output-classified only, the arguments are swapped. -/
theorem connectEdge_eq_in_out (s : GraphState) (a b : ℕ)
    (ha : InOnly (s.ports a)) (hb : OutOnly (s.ports b)) :
    ConnectEdge s a b = some (connectNormalized s b a) := by
  obtain ⟨hai, hao⟩ := ha
  obtain ⟨hbo, hbi⟩ := hb
  simp [ConnectEdge, hai, hao, hbo, hbi]

/-- **C2** (amended): the precondition `ConnectEdge` actually enforces is
only `a->IsNodeInput() != b->IsNodeInput()` — the call fails exactly when the
two arguments agree on `IsNodeInput`; it does not require the non-input
argument to be output-classified, so an Edge with an unclassified endpoint
can be created (see the counterexample).  When the call's arguments do
satisfy the spec's precondition (one input-classified-only port and one
output-classified-only port), the call succeeds and the created Edge
satisfies `output.IsOutput() && input.IsInput()`. -/
theorem connect_classification_amended (s : GraphState) (a b c d : ℕ)
    (hab : ProperArgs s a b) :
    (ConnectEdge s c d = none ↔ IsNodeInput (s.ports c) = IsNodeInput (s.ports d)) ∧
    (ConnectEdge s a b).isSome = true ∧
    IsNodeOutput (((ConnectEdge s a b).getD default).ports
      ((((ConnectEdge s a b).getD default).edges s.nextEdge).output)) = true ∧
    IsNodeInput (((ConnectEdge s a b).getD default).ports
      ((((ConnectEdge s a b).getD default).edges s.nextEdge).input)) = true := by
  refine ⟨?_, ?_⟩
  · constructor
    · intro h
      by_contra hne
      simp [ConnectEdge, hne] at h
      split at h <;> simp_all
    · intro h
      simp [ConnectEdge, h]
  · rcases hab with ⟨ha, hb⟩ | ⟨ha, hb⟩
    · rw [connectEdge_eq_out_in s a b ha hb]
      refine ⟨rfl, ?_, ?_⟩
      · simp [Option.getD, connectNormalized_edges_at, connectNormalized_isNodeOutput, ha.1]
      · simp [Option.getD, connectNormalized_edges_at, connectNormalized_isNodeInput, hb.1]
    · rw [connectEdge_eq_in_out s a b ha hb]
      refine ⟨rfl, ?_, ?_⟩
      · simp [Option.getD, connectNormalized_edges_at, connectNormalized_isNodeOutput, hb.1]
      · simp [Option.getD, connectNormalized_edges_at, connectNormalized_isNodeInput, ha.1]

/-- Witness for C2 (amended) at the sample state: output port 1 connected to
input port 0, checked together with the failure equivalence for the pair
(1, 2) of two output ports. -/
theorem connect_classification_amended_witness :
    ProperArgs sampleState 1 0 ∧
    ((ConnectEdge sampleState 1 2 = none ↔
      IsNodeInput (sampleState.ports 1) = IsNodeInput (sampleState.ports 2)) ∧
    (ConnectEdge sampleState 1 0).isSome = true ∧
    IsNodeOutput (((ConnectEdge sampleState 1 0).getD default).ports
      ((((ConnectEdge sampleState 1 0).getD default).edges sampleState.nextEdge).output)) = true ∧
    IsNodeInput (((ConnectEdge sampleState 1 0).getD default).ports
      ((((ConnectEdge sampleState 1 0).getD default).edges sampleState.nextEdge).input)) = true) :=
  ⟨Or.inl ⟨⟨rfl, rfl⟩, ⟨rfl, rfl⟩⟩,
   connect_classification_amended sampleState 1 0 1 2 (Or.inl ⟨⟨rfl, rfl⟩, ⟨rfl, rfl⟩⟩)⟩

/-- Counterexample to **C2** as stated: port 3 of the sample state is neither
input- nor output-classified, yet `ConnectEdge(port0, port3)` passes the
code's assertion (port 0 is input-classified, port 3 is not) and creates an
edge whose endpoints are the input-classified port 0 in the *output* role and
the unclassified port 3 in the *input* role. -/
theorem connect_classification_cex :
    IsNodeInput (sampleState.ports 3) = false ∧
    IsNodeOutput (sampleState.ports 3) = false ∧
    (ConnectEdge sampleState 0 3).isSome = true ∧
    ((ConnectEdge sampleState 0 3).getD default).edges 0 = ⟨0, 3⟩ ∧
    IsNodeInput (((ConnectEdge sampleState 0 3).getD default).ports 0) = true := by
  decide

/-- If the normalized input port has no incident edge, the connect body's only
notification is one `EdgesChanged` emission on the output port. -/
theorem connectNormalized_notes_nil (s : GraphState) (o i : ℕ)
    (h : (s.ports i).node_edges = []) :
    (connectNormalized s o i).notes = s.notes ++ [o] := by
  unfold connectNormalized
  rw [h]
  rfl

/-- **C7** (amended): `ConnectEdge` and `DisconnectEdge` notify only the
*output* endpoint's observers that its edge set changed; the input endpoint's
observers are not notified.  `DisconnectEdge` emits exactly one
`EdgesChanged`, on `edge->output()`; a `ConnectEdge` call between an
output-classified port `a` and an edge-free input-classified port `b` emits
exactly one `EdgesChanged`, on `a`, and `b` (a different port) is not in the
emission log it appends. -/
theorem edges_changed_notification_amended (s : GraphState) (e a b : ℕ)
    (ha : OutOnly (s.ports a)) (hb : InOnly (s.ports b))
    (hfree : (s.ports b).node_edges = []) :
    (DisconnectEdge s e).notes = s.notes ++ [(s.edges e).output] ∧
    ((ConnectEdge s a b).getD default).notes = s.notes ++ [a] ∧
    a ≠ b := by
  refine ⟨disconnectEdge_notes s e, ?_, ?_⟩
  · rw [connectEdge_eq_out_in s a b ha hb]
    exact connectNormalized_notes_nil s a b hfree
  · intro hab
    subst hab
    obtain ⟨h1, h2⟩ := ha
    obtain ⟨h3, h4⟩ := hb
    rw [h3] at h2
    exact absurd h2 (by simp)

/-- Witness for C7 (amended) at the sample state: connecting output port 1 to
input port 0 notifies exactly port 1. -/
theorem edges_changed_notification_amended_witness :
    (DisconnectEdge sampleState 0).notes = sampleState.notes ++ [(sampleState.edges 0).output] ∧
    ((ConnectEdge sampleState 1 0).getD default).notes = sampleState.notes ++ [1] ∧
    (1 : ℕ) ≠ 0 :=
  edges_changed_notification_amended sampleState 0 1 0 ⟨rfl, rfl⟩ ⟨rfl, rfl⟩ rfl

/-- Counterexample to **C7** as stated: connecting output port 1 to input
port 0 appends only `[1]` to the emission log — the input port 0 is never
notified — and disconnecting the created edge again appends only `[1]`. -/
theorem edges_changed_notification_cex :
    ((ConnectEdge sampleState 1 0).getD default).notes = [1] ∧
    (0 : ℕ) ∉ ((ConnectEdge sampleState 1 0).getD default).notes ∧
    (DisconnectEdge ((ConnectEdge sampleState 1 0).getD default) 0).notes = [1, 1] ∧
    (0 : ℕ) ∉ (DisconnectEdge ((ConnectEdge sampleState 1 0).getD default) 0).notes := by
  decide

/-- Edge lists only lose elements under a disconnect. -/
theorem disconnectEdge_mem_of (s : GraphState) (e j x : ℕ)
    (hx : x ∈ ((DisconnectEdge s e).ports j).node_edges) :
    x ∈ (s.ports j).node_edges := by
  revert hx
  simp only [DisconnectEdge, setPortFn]
  split_ifs <;> intro hx
  all_goals first
    | (simp only [List.mem_filter] at hx; tauto)
    | exact hx

/-- After disconnecting an edge whose list occurrences are all at its own
endpoints, the edge id is in no port's list. -/
theorem disconnectEdge_not_mem (s : GraphState) (e : ℕ)
    (hend : ∀ pid, e ∈ (s.ports pid).node_edges →
      (s.edges e).output = pid ∨ (s.edges e).input = pid) :
    ∀ j, e ∉ ((DisconnectEdge s e).ports j).node_edges := by
  intro j
  simp only [DisconnectEdge, setPortFn]
  split_ifs with h1 h2 h3
  · simp [List.mem_filter]
  · simp [List.mem_filter]
  · simp [List.mem_filter]
  · intro hx
    rcases hend j hx with h | h
    · exact h3 h.symm
    · exact h1 h.symm

/-- Disconnecting never lengthens an edge list. -/
theorem disconnectEdge_length_le (s : GraphState) (e j : ℕ) :
    ((DisconnectEdge s e).ports j).node_edges.length ≤ (s.ports j).node_edges.length := by
  simp only [DisconnectEdge, setPortFn]
  split_ifs
  · exact le_trans (List.length_filter_le _ _) (List.length_filter_le _ _)
  · exact List.length_filter_le _ _
  · exact List.length_filter_le _ _
  · exact le_rfl

/-- Classification is stable under disconnect: `IsNodeInput`. -/
theorem disconnectEdge_isNodeInput (s : GraphState) (e j : ℕ) :
    IsNodeInput ((DisconnectEdge s e).ports j) = IsNodeInput (s.ports j) := by
  simp [IsNodeInput, disconnectEdge_ports_accepted]

/-- Classification is stable under disconnect: `IsNodeOutput`. -/
theorem disconnectEdge_isNodeOutput (s : GraphState) (e j : ℕ) :
    IsNodeOutput ((DisconnectEdge s e).ports j) = IsNodeOutput (s.ports j) := by
  simp [IsNodeOutput, disconnectEdge_ports_output_type]

/-- `DisconnectEdge` preserves graph well-formedness. -/
theorem graphInv_disconnect (s : GraphState) (e : ℕ) (hInv : GraphInv s) :
    GraphInv (DisconnectEdge s e) := by
  obtain ⟨h1, h2⟩ := hInv
  constructor
  · intro pid hin
    rw [disconnectEdge_isNodeInput] at hin
    exact le_trans (disconnectEdge_length_le s e pid) (h1 pid hin)
  · intro pid x hx
    have hx0 := disconnectEdge_mem_of s e pid x hx
    rw [disconnectEdge_edges, disconnectEdge_nextEdge]
    exact h2 pid x hx0

/-- The fresh-edge phase preserves graph well-formedness, provided the
designated input port's list is empty and the designated output port is not
input-classified. -/
theorem graphInv_connectFresh (s : GraphState) (o i : ℕ) (hoi : o ≠ i)
    (hInv : GraphInv s)
    (hiEmpty : (s.ports i).node_edges = [])
    (hoNotIn : IsNodeInput (s.ports o) = false) :
    GraphInv (connectFresh s o i) := by
  obtain ⟨h1, h2⟩ := hInv
  constructor
  · intro pid hin
    have hcls : IsNodeInput ((connectFresh s o i).ports pid) = IsNodeInput (s.ports pid) := by
      simp [IsNodeInput, connectFresh_ports_accepted]
    rw [hcls] at hin
    rw [connectFresh_node_edges s o i pid hoi]
    by_cases hp : pid = o ∨ pid = i
    · rcases hp with hp | hp
      · subst hp
        rw [hin] at hoNotIn
        exact absurd hoNotIn (by simp)
      · subst hp
        simp [hiEmpty]
    · simp only [hp, if_false]
      exact h1 pid hin
  · intro pid x hx
    rw [connectFresh_node_edges s o i pid hoi] at hx
    rw [connectFresh_nextEdge]
    by_cases hp : pid = o ∨ pid = i
    · rw [if_pos hp] at hx
      rcases List.mem_append.1 hx with hx' | hx'
      · obtain ⟨hend, hlt⟩ := h2 pid x hx'
        have hne : x ≠ s.nextEdge := Nat.ne_of_lt hlt
        rw [connectFresh_edges, if_neg hne]
        exact ⟨hend, Nat.lt_succ_of_lt hlt⟩
      · have hx2 : x = s.nextEdge := by simpa using hx'
        subst hx2
        rw [connectFresh_edges, if_pos rfl]
        rcases hp with hp | hp
        · exact ⟨Or.inl hp.symm, Nat.lt_succ_self _⟩
        · exact ⟨Or.inr hp.symm, Nat.lt_succ_self _⟩
    · rw [if_neg hp] at hx
      obtain ⟨hend, hlt⟩ := h2 pid x hx
      have hne : x ≠ s.nextEdge := Nat.ne_of_lt hlt
      rw [connectFresh_edges, if_neg hne]
      exact ⟨hend, Nat.lt_succ_of_lt hlt⟩

/-- An input-classified-only and an output-classified-only port have
different ids. -/
theorem ne_of_out_in (s : GraphState) (o i : ℕ)
    (ho : OutOnly (s.ports o)) (hi : InOnly (s.ports i)) : o ≠ i := by
  intro h
  subst h
  obtain ⟨ho1, ho2⟩ := ho
  obtain ⟨hi1, hi2⟩ := hi
  rw [hi1] at ho2
  exact absurd ho2 (by simp)

/-- The normalized connect body preserves graph well-formedness when applied
to an output-classified-only port and an input-classified-only port. -/
theorem graphInv_connectNormalized (s : GraphState) (o i : ℕ)
    (ho : OutOnly (s.ports o)) (hi : InOnly (s.ports i))
    (hInv : GraphInv s) : GraphInv (connectNormalized s o i) := by
  have hoi : o ≠ i := ne_of_out_in s o i ho hi
  unfold connectNormalized
  cases h : (s.ports i).node_edges with
  | nil => exact graphInv_connectFresh s o i hoi hInv h ho.2
  | cons e rest =>
    have hmem : e ∈ (s.ports i).node_edges := by rw [h]; exact List.mem_cons_self e rest
    have hend : ∀ pid, e ∈ (s.ports pid).node_edges →
        (s.edges e).output = pid ∨ (s.edges e).input = pid :=
      fun pid hx => (hInv.2 pid e hx).1
    have hInv1 : GraphInv (DisconnectEdge s e) := graphInv_disconnect s e hInv
    refine graphInv_connectFresh (DisconnectEdge s e) o i hoi hInv1 ?_ ?_
    · -- the input port's (length ≤ 1) list becomes empty
      have hlen : (s.ports i).node_edges.length ≤ 1 := hInv.1 i hi.1
      have hrest : rest = [] := by
        rw [h] at hlen
        simpa using hlen
      apply List.eq_nil_iff_forall_not_mem.2
      intro x hx
      have hx0 := disconnectEdge_mem_of s e i x hx
      rw [h, hrest] at hx0
      have hx1 : x = e := by simpa using hx0
      rw [hx1] at hx
      exact disconnectEdge_not_mem s e hend i hx
    · rw [disconnectEdge_isNodeInput]
      exact ho.2

/-- Classification is stable under one protocol step: `IsNodeInput`. -/
theorem stepGraph_isNodeInput (s : GraphState) (op : GraphOp) (j : ℕ) :
    IsNodeInput ((stepGraph s op).ports j) = IsNodeInput (s.ports j) := by
  cases op with
  | connect a b =>
    simp only [stepGraph, ConnectEdge]
    split_ifs <;> simp [Option.getD, connectNormalized_ports_accepted, IsNodeInput]
  | disconnect e => exact disconnectEdge_isNodeInput s e j

/-- Classification is stable under one protocol step: `IsNodeOutput`. -/
theorem stepGraph_isNodeOutput (s : GraphState) (op : GraphOp) (j : ℕ) :
    IsNodeOutput ((stepGraph s op).ports j) = IsNodeOutput (s.ports j) := by
  cases op with
  | connect a b =>
    simp only [stepGraph, ConnectEdge]
    split_ifs <;> simp [Option.getD, connectNormalized_ports_output_type, IsNodeOutput]
  | disconnect e => exact disconnectEdge_isNodeOutput s e j

/-- The connect precondition is stable under protocol steps. -/
theorem properArgs_step (s : GraphState) (op : GraphOp) (x y : ℕ)
    (h : ProperArgs s x y) : ProperArgs (stepGraph s op) x y := by
  unfold ProperArgs InOnly OutOnly at h ⊢
  rw [stepGraph_isNodeInput, stepGraph_isNodeInput, stepGraph_isNodeOutput,
    stepGraph_isNodeOutput]
  exact h

/-- One protocol step preserves graph well-formedness, provided a connect
step has properly classified arguments. -/
theorem graphInv_step (s : GraphState) (op : GraphOp)
    (hInv : GraphInv s)
    (hop : ∀ x y, op = GraphOp.connect x y → ProperArgs s x y) :
    GraphInv (stepGraph s op) := by
  cases op with
  | connect a b =>
    rcases hop a b rfl with ⟨ha, hb⟩ | ⟨ha, hb⟩
    · rw [show stepGraph s (GraphOp.connect a b) = (ConnectEdge s a b).getD s from rfl,
        connectEdge_eq_out_in s a b ha hb]
      exact graphInv_connectNormalized s a b ha hb hInv
    · rw [show stepGraph s (GraphOp.connect a b) = (ConnectEdge s a b).getD s from rfl,
        connectEdge_eq_in_out s a b ha hb]
      exact graphInv_connectNormalized s b a hb ha hInv
  | disconnect e => exact graphInv_disconnect s e hInv

/-- Any sequence of protocol calls whose connect calls have properly
classified arguments preserves graph well-formedness. -/
theorem graphInv_run (ops : List GraphOp) : ∀ s : GraphState, GraphInv s →
    (∀ x y, GraphOp.connect x y ∈ ops → ProperArgs s x y) →
    GraphInv (runGraph s ops) := by
  induction ops with
  | nil => intro s hInv _; exact hInv
  | cons op rest ih =>
    intro s hInv hops
    have hstep : GraphInv (stepGraph s op) :=
      graphInv_step s op hInv (fun x y hxy => hops x y (by rw [hxy]; exact List.mem_cons_self _ _))
    have hrest : ∀ x y, GraphOp.connect x y ∈ rest → ProperArgs (stepGraph s op) x y :=
      fun x y hxy => properArgs_step s op x y (hops x y (List.mem_cons_of_mem _ hxy))
    exact ih (stepGraph s op) hstep hrest

/-- When a connect call (with properly classified arguments) finds a prior
edge on the input port, that edge is removed from every port's edge list —
in particular from both of its old endpoints' lists — before the new edge is
registered. -/
theorem connect_prior_edge_gone (s : GraphState) (a b e : ℕ)
    (hInv : GraphInv s) (ha : OutOnly (s.ports a)) (hb : InOnly (s.ports b))
    (hhead : (s.ports b).node_edges.head? = some e) :
    EdgeGone (connectNormalized s a b) e := by
  have hab : a ≠ b := ne_of_out_in s a b ha hb
  cases h : (s.ports b).node_edges with
  | nil =>
    rw [h] at hhead
    simp at hhead
  | cons e0 rest =>
    rw [h] at hhead
    have he0 : e0 = e := by simpa using hhead
    have hmem : e ∈ (s.ports b).node_edges := by
      rw [h, he0]
      exact List.mem_cons_self e rest
    have hend : ∀ pid, e ∈ (s.ports pid).node_edges →
        (s.edges e).output = pid ∨ (s.edges e).input = pid :=
      fun pid hx => (hInv.2 pid e hx).1
    have helt : e < s.nextEdge := (hInv.2 b e hmem).2
    intro pid hx
    rw [show connectNormalized s a b = connectFresh (DisconnectEdge s e) a b from by
      unfold connectNormalized
      rw [h, he0]] at hx
    rw [connectFresh_node_edges (DisconnectEdge s e) a b pid hab] at hx
    rw [disconnectEdge_nextEdge] at hx
    by_cases hp : pid = a ∨ pid = b
    · rw [if_pos hp] at hx
      rcases List.mem_append.1 hx with hx' | hx'
      · exact disconnectEdge_not_mem s e hend pid hx'
      · have : e = s.nextEdge := by simpa using hx'
        omega
    · rw [if_neg hp] at hx
      exact disconnectEdge_not_mem s e hend pid hx

/-- **C1** (amended): provided every `ConnectEdge` call in the sequence is
given one input-classified-only port and one output-classified-only port (the
spec's connect precondition), any sequence of `ConnectEdge` /
`DisconnectEdge` calls starting from a well-formed state keeps the graph
well-formed — in particular an input-classified port's edge set never holds
more than one edge; and a `ConnectEdge` call on an input port whose edge
list already holds an edge `e` first disconnects `e`, removing it from both
of its endpoints' edge sets (including the old output port's set): `e` is in
no port's edge set in the resulting state.  Without the classification
restriction on the calls the claim is false, see the counterexample. -/
theorem connect_single_input_invariant (s0 : GraphState) (ops : List GraphOp) (a b e : ℕ)
    (hInv : GraphInv s0)
    (hops : ∀ x y, GraphOp.connect x y ∈ ops → ProperArgs s0 x y)
    (ha : OutOnly (s0.ports a)) (hb : InOnly (s0.ports b))
    (hhead : (s0.ports b).node_edges.head? = some e) :
    GraphInv (runGraph s0 ops) ∧
    ConnectEdge s0 a b = some (connectNormalized s0 a b) ∧
    EdgeGone (connectNormalized s0 a b) e :=
  ⟨graphInv_run ops s0 hInv hops,
   connectEdge_eq_out_in s0 a b ha hb,
   connect_prior_edge_gone s0 a b e hInv ha hb hhead⟩

/-- The sample state with one existing edge is well-formed. -/
theorem graphInv_sampleState2 : GraphInv sampleState2 := by
  constructor
  · intro pid _
    unfold sampleState2
    dsimp only
    split_ifs <;> simp [blankPort]
  · intro pid x
    unfold sampleState2
    dsimp only
    split_ifs with h1 h2 h3
    · intro hx
      have hx0 : x = 0 := by simpa using hx
      rw [hx0]
      exact ⟨Or.inr h1.symm, by omega⟩
    · intro hx
      have hx0 : x = 0 := by simpa using hx
      rw [hx0]
      exact ⟨Or.inl h2.symm, by omega⟩
    · intro hx
      simp [blankPort] at hx
    · intro hx
      simp [blankPort] at hx

/-- Witness for C1 (amended): in the sample state where input port 0 is
already connected to output port 1 by edge 0, running the call
`ConnectEdge(port2, port0)` keeps the graph well-formed and edge 0 is gone
from every port's edge set. -/
theorem connect_single_input_invariant_witness :
    GraphInv sampleState2 ∧
    (GraphInv (runGraph sampleState2 [GraphOp.connect 2 0]) ∧
     ConnectEdge sampleState2 2 0 = some (connectNormalized sampleState2 2 0) ∧
     EdgeGone (connectNormalized sampleState2 2 0) 0) :=
  ⟨graphInv_sampleState2,
   connect_single_input_invariant sampleState2 [GraphOp.connect 2 0] 2 0 0
     graphInv_sampleState2
     (by
       intro x y hxy
       simp only [List.mem_singleton, GraphOp.connect.injEq] at hxy
       obtain ⟨rfl, rfl⟩ := hxy
       exact Or.inl ⟨⟨rfl, rfl⟩, ⟨rfl, rfl⟩⟩)
     ⟨rfl, rfl⟩ ⟨rfl, rfl⟩ rfl⟩

/-- Counterexample to **C1** as stated: starting from the edge-free sample
state, the two calls `ConnectEdge(port0, port3)` and `ConnectEdge(port0,
port4)` both pass the code's assertion (port 0 is input-classified, ports 3
and 4 are unclassified, so `IsNodeInput` differs), no disconnect ever
happens, and afterwards the input-classified port 0 holds **two** edges. -/
theorem connect_single_input_cex :
    IsNodeInput ((runGraph sampleState [GraphOp.connect 0 3, GraphOp.connect 0 4]).ports 0) = true ∧
    (ConnectEdge sampleState 0 3).isSome = true ∧
    ((runGraph sampleState [GraphOp.connect 0 3, GraphOp.connect 0 4]).ports 0).node_edges.length = 2 := by
  decide

/-- One classification call on a port: `AddAcceptedNodeInput` or
`SetOutputDataType`. -/
inductive ClassOp where
  | addInput (t : ℕ)
  | setOutput (t : ℕ)

/-- Execute one classification call; a failed `Q_ASSERT` aborts, leaving the
port unchanged past that point. -/
def classStep (p : NodeIO) : ClassOp → NodeIO
  | .addInput t => (AddAcceptedNodeInput p t).getD p
  | .setOutput t => (SetOutputDataType p t).getD p

/-- Execute a sequence of classification calls. -/
def runClass (p : NodeIO) (ops : List ClassOp) : NodeIO :=
  ops.foldl classStep p

/-- One classification call never makes a port both input- and
output-classified. -/
theorem classStep_not_both (p : NodeIO) (op : ClassOp)
    (h : ¬(IsNodeInput p = true ∧ IsNodeOutput p = true)) :
    ¬(IsNodeInput (classStep p op) = true ∧ IsNodeOutput (classStep p op) = true) := by
  cases op with
  | addInput t =>
    simp only [classStep, AddAcceptedNodeInput]
    split_ifs with hout
    · intro hc
      have : IsNodeOutput { p with accepted_inputs := p.accepted_inputs ++ [t] } = false := by
        simp [IsNodeOutput, hout]
      rw [Option.getD_some] at hc
      rw [this] at hc
      exact absurd hc.2 (by simp)
    · exact h
  | setOutput t =>
    simp only [classStep, SetOutputDataType]
    split_ifs with hin
    · intro hc
      have : IsNodeInput { p with output_type := t } = false := by
        simp [IsNodeInput, hin]
      rw [Option.getD_some] at hc
      rw [this] at hc
      exact absurd hc.1 (by simp)
    · exact h

/-- **C3**: under any sequence of `AddAcceptedNodeInput` /
`SetOutputDataType` calls a port never becomes both input- and
output-classified (`IsNodeInput` and `IsNodeOutput` are never both true);
moreover `AddAcceptedNodeInput` fails (assertion `output_type_ == kInvalid`)
while an output type is set, and `SetOutputDataType` fails (assertion
`accepted_inputs_.isEmpty()`) while the accepted-input set is non-empty. -/
theorem classification_exclusive (p : NodeIO) (ops : List ClassOp) (t : ℕ)
    (h : ¬(IsNodeInput p = true ∧ IsNodeOutput p = true)) :
    ¬(IsNodeInput (runClass p ops) = true ∧ IsNodeOutput (runClass p ops) = true) ∧
    (IsNodeOutput p = true → AddAcceptedNodeInput p t = none) ∧
    (IsNodeInput p = true → SetOutputDataType p t = none) := by
  refine ⟨?_, ?_, ?_⟩
  · induction ops generalizing p with
    | nil => exact h
    | cons op rest ih =>
      exact ih (classStep p op) (classStep_not_both p op h)
  · intro hout
    have : ¬ p.output_type = kInvalid := by
      simpa [IsNodeOutput] using hout
    simp [AddAcceptedNodeInput, this]
  · intro hin
    have : p.accepted_inputs.isEmpty = false := by
      simpa [IsNodeInput] using hin
    simp [SetOutputDataType, this]

/-- Witness for C3: a freshly constructed port classified as an input by one
call, followed by an attempted output classification. -/
theorem classification_exclusive_witness :
    ¬(IsNodeInput blankPort = true ∧ IsNodeOutput blankPort = true) ∧
    (¬(IsNodeInput (runClass blankPort [ClassOp.addInput 1, ClassOp.setOutput 2]) = true ∧
       IsNodeOutput (runClass blankPort [ClassOp.addInput 1, ClassOp.setOutput 2]) = true) ∧
     (IsNodeOutput blankPort = true → AddAcceptedNodeInput blankPort 2 = none) ∧
     (IsNodeInput blankPort = true → SetOutputDataType blankPort 2 = none)) :=
  ⟨by decide,
   classification_exclusive blankPort [ClassOp.addInput 1, ClassOp.setOutput 2] 2 (by decide)⟩

/-- The external collaborators of one `NodeIO` call (spec §6): the active
sequence playhead, the owning clip's `timeline_in()` and `clip_in()` (whose
difference is the additive clip-to-sequence time offset), the external node
classification (`GetParentEffect()->type() == EFFECT_TYPE_TRANSITION`), the
answer of the confirmation gate (`QMessageBox::question`), and the owning
node's current time `GetParentEffect()->Now()`. -/
structure Env where
  playhead : ℤ
  timeline_in : ℤ
  clip_in : ℤ
  parentIsTransition : Bool
  confirm : Bool
  now : ℤ

/-- One command object appended to a `ComboAction` and pushed on the undo
stack: `SetIsKeyframing`, `EffectField::PrepareDataForKeyframing`'s recorded
conversion, `KeyframeDataChange`, or `KeyframeDelete` (fields are identified
by their index in the port's field list). -/
inductive RCmd where
  | setIsKeyframing (b : Bool)
  | prepareData (fieldIdx : ℕ) (enabled : Bool)
  | keyframeDataChange (fieldIdx : ℕ)
  | keyframeDelete (fieldIdx : ℕ) (kfIdx : ℕ)
  deriving DecidableEq

/-- Modelled from the spec: `EffectField::GetValueAt` (§4.2) — static value
when keyframing is disabled or there are no keyframes; otherwise the exact
matching keyframe's value, clamped to the first keyframe before the first
and held from the previous keyframe in between and after the last
(step/hold; the interpolation choice does not affect any claim).  Helper:
value held from the keyframe `cur` over the remaining list. -/
def holdFrom (cur : EffectKeyframe) : List EffectKeyframe → ℤ → ℤ
  | [], _ => cur.value
  | k :: rest, t => if t < k.time then cur.value else holdFrom k rest t

/-- Modelled from the spec: `EffectField::GetValueAt` (§4.2), see
`holdFrom`. -/
def getValueAt (f : EffectField) (keyframing : Bool) (t : ℤ) : ℤ :=
  match f.keyframes with
  | [] => f.static_value
  | k :: rest =>
    if keyframing then (if t < k.time then k.value else holdFrom k rest t)
    else f.static_value

/-- Modelled from the spec: the insertion step of `EffectField::SetValueAt`
(§4.2) — an exact-time match overwrites in place, otherwise the keyframe is
inserted preserving sorted time order. -/
def insertKeyframe : List EffectKeyframe → ℤ → ℤ → List EffectKeyframe
  | [], t, v => [⟨t, v⟩]
  | k :: rest, t, v =>
    if t < k.time then ⟨t, v⟩ :: k :: rest
    else if t = k.time then ⟨t, v⟩ :: rest
    else k :: insertKeyframe rest t v

/-- Modelled from the spec: `EffectField::SetValueAt` (§4.2) — overwrites
the static value when keyframing is disabled, inserts or overwrites the
keyframe at the given time when enabled. -/
def setValueAt (f : EffectField) (keyframing : Bool) (t : ℤ) (v : ℤ) : EffectField :=
  if keyframing then { f with keyframes := insertKeyframe f.keyframes t v }
  else { f with static_value := v }

/-- Modelled from the spec: `EffectField::PrepareDataForKeyframing` (§4.1) —
enabling converts the static value into a single keyframe anchored at the
current time; disabling discards the keyframe sequence and replaces it by a
single static value, the value at the current time at the moment of
disabling. -/
def prepareDataForKeyframing (enable : Bool) (now : ℤ) (f : EffectField) : EffectField :=
  if enable then { f with keyframes := [⟨now, f.static_value⟩] }
  else { f with static_value := getValueAt f true now, keyframes := [] }

/-- `NodeIO::SetKeyframingInternal`: assigns the flag (and emits
`KeyframingSetChanged`) only when the parent effect's type is not
`EFFECT_TYPE_TRANSITION`; for a transition the call does nothing. -/
def setKeyframingInternal (p : NodeIO) (env : Env) (b : Bool) : NodeIO :=
  if env.parentIsTransition = false then { p with keyframing := b } else p

/-- `NodeIO::SetKeyframingEnabled`: no-op when the requested state equals the
current flag.  Enabling builds one `ComboAction` holding `SetIsKeyframing
(true)` and each field's keyframing preparation and pushes it.  Disabling
first consults the confirmation gate; on yes it builds and pushes one
`ComboAction` holding each field's preparation and `SetIsKeyframing(false)`;
on no it calls `SetKeyframingInternal(true)` and pushes nothing.  The
`SetIsKeyframing` command is modelled from the spec as applying its flag
through the guarded setter `SetKeyframingInternal`, and the pushed
`ComboAction`'s field preparations execute `prepareDataForKeyframing` on
every field. -/
def setKeyframingEnabled (p : NodeIO) (env : Env) (enabled : Bool)
    (journal : List (List RCmd)) : NodeIO × List (List RCmd) :=
  if enabled = p.keyframing then (p, journal)
  else if enabled then
    let ca := RCmd.setIsKeyframing true ::
      (List.range p.fields.length).map (fun i => RCmd.prepareData i true)
    let p1 := setKeyframingInternal p env true
    let p2 := { p1 with fields := p1.fields.map (prepareDataForKeyframing true env.now) }
    (p2, journal ++ [ca])
  else if env.confirm then
    let ca := (List.range p.fields.length).map (fun i => RCmd.prepareData i false) ++
      [RCmd.setIsKeyframing false]
    let p1 := { p with fields := p.fields.map (prepareDataForKeyframing false env.now) }
    let p2 := setKeyframingInternal p1 env false
    (p2, journal ++ [ca])
  else
    (setKeyframingInternal p env true, journal)

/-- Re-assigning a port's keyframing flag to its current value is the
identity. -/
theorem keyframing_set_self (p : NodeIO) (h : p.keyframing = true) :
    { p with keyframing := true } = p := by
  cases p
  simp_all

/-- **C6**: calling `SetKeyframingEnabled(false)` on a keyframed port when
the confirmation gate refuses leaves the port completely unchanged — the
keyframing flag keeps (is "reverted to") its prior value `true`, every
field's keyframes and static value are exactly as before — and pushes
nothing onto the undo journal. -/
theorem keyframing_disable_refused_noop (p : NodeIO) (env : Env)
    (journal : List (List RCmd))
    (hk : p.keyframing = true) (hc : env.confirm = false) :
    setKeyframingEnabled p env false journal = (p, journal) := by
  unfold setKeyframingEnabled
  rw [hk, hc]
  simp only [Bool.false_eq_true, if_false]
  unfold setKeyframingInternal
  split_ifs with ht
  · rw [keyframing_set_self p hk]
  · rfl

/-- Witness for C6: a keyframed one-field port, refused confirmation. -/
theorem keyframing_disable_refused_noop_witness :
    (⟨[], kInvalid, true, true, [⟨3, [⟨5, 7⟩], true⟩], []⟩ : NodeIO).keyframing = true ∧
    (⟨10, 2, 1, false, false, 9⟩ : Env).confirm = false ∧
    setKeyframingEnabled ⟨[], kInvalid, true, true, [⟨3, [⟨5, 7⟩], true⟩], []⟩
      ⟨10, 2, 1, false, false, 9⟩ false [] =
      (⟨[], kInvalid, true, true, [⟨3, [⟨5, 7⟩], true⟩], []⟩, []) :=
  ⟨rfl, rfl,
   keyframing_disable_refused_noop ⟨[], kInvalid, true, true, [⟨3, [⟨5, 7⟩], true⟩], []⟩
     ⟨10, 2, 1, false, false, 9⟩ [] rfl rfl⟩

/-- **C8** (amended): `SetKeyframingEnabled` never consults the
`keyframable_` flag — enabling keyframing on a port whose parent is not a
transition sets the keyframing flag to `true` regardless of whether the port
was constructed with `keyframable == true`, and leaves `keyframable_` itself
untouched.  The guard the claim describes does not exist in this code path
(it lives in the UI layer, outside this subsystem); see the counterexample
for a non-keyframable port whose flag becomes `true`. -/
theorem keyframing_flag_ignores_keyframable (p : NodeIO) (env : Env)
    (journal : List (List RCmd))
    (hk : p.keyframing = false) (ht : env.parentIsTransition = false) :
    (setKeyframingEnabled p env true journal).1.keyframing = true ∧
    (setKeyframingEnabled p env true journal).1.keyframable = p.keyframable := by
  unfold setKeyframingEnabled
  rw [hk]
  simp only [Bool.true_eq_false, if_false, if_true]
  unfold setKeyframingInternal
  rw [ht]
  simp

/-- Witness for C8 (amended): a non-keyframable port still gets its
keyframing flag set. -/
theorem keyframing_flag_ignores_keyframable_witness :
    (⟨[], kInvalid, false, false, [⟨3, [], true⟩], []⟩ : NodeIO).keyframing = false ∧
    (⟨10, 0, 0, false, true, 7⟩ : Env).parentIsTransition = false ∧
    ((setKeyframingEnabled ⟨[], kInvalid, false, false, [⟨3, [], true⟩], []⟩
        ⟨10, 0, 0, false, true, 7⟩ true []).1.keyframing = true ∧
     (setKeyframingEnabled ⟨[], kInvalid, false, false, [⟨3, [], true⟩], []⟩
        ⟨10, 0, 0, false, true, 7⟩ true []).1.keyframable =
       (⟨[], kInvalid, false, false, [⟨3, [], true⟩], []⟩ : NodeIO).keyframable) :=
  ⟨rfl, rfl,
   keyframing_flag_ignores_keyframable ⟨[], kInvalid, false, false, [⟨3, [], true⟩], []⟩
     ⟨10, 0, 0, false, true, 7⟩ [] rfl rfl⟩

/-- Counterexample to **C8** as stated: the port is constructed with
`keyframable == false`, yet `SetKeyframingEnabled(true)` sets the keyframing
flag. -/
theorem keyframing_flag_keyframable_cex :
    (⟨[], kInvalid, false, false, [⟨3, [], true⟩], []⟩ : NodeIO).keyframable = false ∧
    (setKeyframingEnabled ⟨[], kInvalid, false, false, [⟨3, [], true⟩], []⟩
       ⟨10, 0, 0, false, true, 7⟩ true []).1.keyframing = true := by
  decide

/-- **C9** (amended): for a port whose owning node is transition-classified,
only the keyframing *flag* is guarded: `SetKeyframingEnabled` never changes
the flag (on any path), but the enable path still pushes its one-transaction
`ComboAction` onto the undo journal and still runs every field's keyframing
preparation, converting each field's static value into a keyframe.  The
claim's "entire state unchanged" is false, see the counterexample. -/
theorem transition_guard_flag_only (p : NodeIO) (env : Env) (b : Bool)
    (journal : List (List RCmd))
    (ht : env.parentIsTransition = true) :
    (setKeyframingEnabled p env b journal).1.keyframing = p.keyframing ∧
    (b = true → p.keyframing = false →
      (setKeyframingEnabled p env b journal).2 = journal ++
        [RCmd.setIsKeyframing true ::
          (List.range p.fields.length).map (fun i => RCmd.prepareData i true)] ∧
      (setKeyframingEnabled p env b journal).1.fields =
        p.fields.map (prepareDataForKeyframing true env.now)) := by
  constructor
  · unfold setKeyframingEnabled setKeyframingInternal
    rw [ht]
    simp only [Bool.true_eq_false, if_false]
    split_ifs <;> rfl
  · intro hb hk
    subst hb
    unfold setKeyframingEnabled setKeyframingInternal
    rw [ht, hk]
    simp

/-- Witness for C9 (amended): a transition port on the enable path. -/
theorem transition_guard_flag_only_witness :
    (⟨10, 0, 0, true, true, 7⟩ : Env).parentIsTransition = true ∧
    ((setKeyframingEnabled ⟨[], kInvalid, true, false, [⟨3, [], true⟩], []⟩
        ⟨10, 0, 0, true, true, 7⟩ true []).1.keyframing =
      (⟨[], kInvalid, true, false, [⟨3, [], true⟩], []⟩ : NodeIO).keyframing ∧
     (true = true → (⟨[], kInvalid, true, false, [⟨3, [], true⟩], []⟩ : NodeIO).keyframing = false →
       (setKeyframingEnabled ⟨[], kInvalid, true, false, [⟨3, [], true⟩], []⟩
          ⟨10, 0, 0, true, true, 7⟩ true []).2 = [] ++
         [RCmd.setIsKeyframing true ::
           (List.range (⟨[], kInvalid, true, false, [⟨3, [], true⟩], []⟩ : NodeIO).fields.length).map
             (fun i => RCmd.prepareData i true)] ∧
       (setKeyframingEnabled ⟨[], kInvalid, true, false, [⟨3, [], true⟩], []⟩
          ⟨10, 0, 0, true, true, 7⟩ true []).1.fields =
         (⟨[], kInvalid, true, false, [⟨3, [], true⟩], []⟩ : NodeIO).fields.map
           (prepareDataForKeyframing true (⟨10, 0, 0, true, true, 7⟩ : Env).now))) :=
  ⟨rfl,
   transition_guard_flag_only ⟨[], kInvalid, true, false, [⟨3, [], true⟩], []⟩
     ⟨10, 0, 0, true, true, 7⟩ true [] rfl⟩

/-- Counterexample to **C9** as stated: on a transition port with one field
of static value 3, `SetKeyframingEnabled(true)` is not a complete no-op —
one transaction is pushed onto the undo journal and the field gains the
keyframe `(7, 3)` — even though the keyframing flag itself stays `false`. -/
theorem transition_guard_cex :
    (setKeyframingEnabled ⟨[], kInvalid, true, false, [⟨3, [], true⟩], []⟩
       ⟨10, 0, 0, true, true, 7⟩ true []).2.length = 1 ∧
    ((setKeyframingEnabled ⟨[], kInvalid, true, false, [⟨3, [], true⟩], []⟩
       ⟨10, 0, 0, true, true, 7⟩ true []).1.fields.map (fun f => f.keyframes)) = [[⟨7, 3⟩]] ∧
    (setKeyframingEnabled ⟨[], kInvalid, true, false, [⟨3, [], true⟩], []⟩
       ⟨10, 0, 0, true, true, 7⟩ true []).1.keyframing = false := by
  decide

/-- The `LONG_MIN` sentinel of `GoToPreviousKeyframe` (64-bit `long`). -/
def LONG_MIN : ℤ := -(2 ^ 63)

/-- The `LONG_MAX` sentinel of `GoToNextKeyframe` (64-bit `long`). -/
def LONG_MAX : ℤ := 2 ^ 63 - 1

/-- The accumulation loop of `NodeIO::GoToPreviousKeyframe`: over all fields
and all their keyframes, `comp = keyframe time + (timeline_in - clip_in)`;
whenever `comp < sequence_playhead`, `key = qMax(comp, key)`, starting from
`LONG_MIN`. -/
def prevKeyFold (p : NodeIO) (env : Env) : ℤ :=
  p.fields.foldl (fun key f =>
    f.keyframes.foldl (fun key k =>
      if k.time + (env.timeline_in - env.clip_in) < env.playhead
      then max (k.time + (env.timeline_in - env.clip_in)) key else key) key) LONG_MIN

/-- `NodeIO::GoToPreviousKeyframe`: seeks (returns `some key`) iff the
accumulated key differs from the `LONG_MIN` sentinel. -/
def goToPreviousKeyframe (p : NodeIO) (env : Env) : Option ℤ :=
  if prevKeyFold p env ≠ LONG_MIN then some (prevKeyFold p env) else none

/-- The accumulation loop of `NodeIO::GoToNextKeyframe`: `comp = keyframe
time - clip_in + timeline_in`; whenever `comp > playhead`,
`key = qMin(comp, key)`, starting from `LONG_MAX`. -/
def nextKeyFold (p : NodeIO) (env : Env) : ℤ :=
  p.fields.foldl (fun key f =>
    f.keyframes.foldl (fun key k =>
      if k.time - env.clip_in + env.timeline_in > env.playhead
      then min (k.time - env.clip_in + env.timeline_in) key else key) key) LONG_MAX

/-- `NodeIO::GoToNextKeyframe`: seeks iff the accumulated key differs from
the `LONG_MAX` sentinel. -/
def goToNextKeyframe (p : NodeIO) (env : Env) : Option ℤ :=
  if nextKeyFold p env ≠ LONG_MAX then some (nextKeyFold p env) else none

/-- All keyframes of a field list, in field order. -/
def allKeyframes (fs : List EffectField) : List EffectKeyframe :=
  fs.foldr (fun f acc => f.keyframes ++ acc) []

/-- Every keyframe time of the port, converted to the sequence timeline by
the clip's additive offset `timeline_in - clip_in`. -/
def convertedTimes (p : NodeIO) (env : Env) : List ℤ :=
  (allKeyframes p.fields).map (fun k => k.time + (env.timeline_in - env.clip_in))

/-- Running maximum of a list, seeded with `a` (the loop's `qMax` shape). -/
def maxFold (l : List ℤ) (a : ℤ) : ℤ :=
  l.foldl (fun key c => max c key) a

/-- Running minimum of a list, seeded with `a` (the loop's `qMin` shape). -/
def minFold (l : List ℤ) (a : ℤ) : ℤ :=
  l.foldl (fun key c => min c key) a

/-- The maximum of a list of integers as an `Option` (none iff empty). -/
def optMax : List ℤ → Option ℤ
  | [] => none
  | c :: t =>
    match optMax t with
    | none => some c
    | some m => some (max c m)

/-- The minimum of a list of integers as an `Option` (none iff empty). -/
def optMin : List ℤ → Option ℤ
  | [] => none
  | c :: t =>
    match optMin t with
    | none => some c
    | some m => some (min c m)

theorem maxFold_append (x y : List ℤ) (a : ℤ) :
    maxFold (x ++ y) a = maxFold y (maxFold x a) := by
  simp [maxFold, List.foldl_append]

theorem minFold_append (x y : List ℤ) (a : ℤ) :
    minFold (x ++ y) a = minFold y (minFold x a) := by
  simp [minFold, List.foldl_append]

theorem maxFold_init_le (l : List ℤ) : ∀ a : ℤ, a ≤ maxFold l a := by
  induction l with
  | nil => intro a; exact le_rfl
  | cons c t ih => intro a; exact le_trans (le_max_right c a) (ih (max c a))

theorem minFold_le_init (l : List ℤ) : ∀ a : ℤ, minFold l a ≤ a := by
  induction l with
  | nil => intro a; exact le_rfl
  | cons c t ih => intro a; exact le_trans (ih (min c a)) (min_le_right c a)

theorem maxFold_le_of_mem (l : List ℤ) (c : ℤ) (h : c ∈ l) : ∀ a, c ≤ maxFold l a := by
  induction l with
  | nil => cases h
  | cons d t ih =>
    intro a
    rcases List.mem_cons.1 h with h1 | h2
    · rw [h1]
      exact le_trans (le_max_left d a) (maxFold_init_le t (max d a))
    · exact ih h2 (max d a)

theorem minFold_ge_of_mem (l : List ℤ) (c : ℤ) (h : c ∈ l) : ∀ a, minFold l a ≤ c := by
  induction l with
  | nil => cases h
  | cons d t ih =>
    intro a
    rcases List.mem_cons.1 h with h1 | h2
    · rw [h1]
      exact le_trans (minFold_le_init t (min d a)) (min_le_left d a)
    · exact ih h2 (min d a)

theorem maxFold_eq_init (l : List ℤ) (a : ℤ) (h : ∀ c ∈ l, a < c) :
    maxFold l a = a ↔ l = [] := by
  constructor
  · intro he
    cases l with
    | nil => rfl
    | cons c t =>
      have h1 : c ≤ maxFold (c :: t) a :=
        maxFold_le_of_mem (c :: t) c (List.mem_cons_self c t) a
      rw [he] at h1
      exact absurd h1 (not_le.2 (h c (List.mem_cons_self c t)))
  · intro he
    rw [he]
    rfl

theorem minFold_eq_init (l : List ℤ) (a : ℤ) (h : ∀ c ∈ l, c < a) :
    minFold l a = a ↔ l = [] := by
  constructor
  · intro he
    cases l with
    | nil => rfl
    | cons c t =>
      have h1 : minFold (c :: t) a ≤ c :=
        minFold_ge_of_mem (c :: t) c (List.mem_cons_self c t) a
      rw [he] at h1
      exact absurd h1 (not_le.2 (h c (List.mem_cons_self c t)))
  · intro he
    rw [he]
    rfl

theorem optMax_none_iff (l : List ℤ) : optMax l = none ↔ l = [] := by
  cases l with
  | nil => simp [optMax]
  | cons c t =>
    simp only [optMax]
    cases optMax t <;> simp

theorem optMin_none_iff (l : List ℤ) : optMin l = none ↔ l = [] := by
  cases l with
  | nil => simp [optMin]
  | cons c t =>
    simp only [optMin]
    cases optMin t <;> simp

theorem maxFold_swap (t : List ℤ) : ∀ a c : ℤ, maxFold t (max c a) = max c (maxFold t a) := by
  induction t with
  | nil => intro a c; rfl
  | cons d t ih =>
    intro a c
    rw [show maxFold (d :: t) (max c a) = maxFold t (max d (max c a)) from rfl]
    rw [show maxFold (d :: t) a = maxFold t (max d a) from rfl]
    rw [max_left_comm d c a]
    exact ih (max d a) c

theorem minFold_swap (t : List ℤ) : ∀ a c : ℤ, minFold t (min c a) = min c (minFold t a) := by
  induction t with
  | nil => intro a c; rfl
  | cons d t ih =>
    intro a c
    rw [show minFold (d :: t) (min c a) = minFold t (min d (min c a)) from rfl]
    rw [show minFold (d :: t) a = minFold t (min d a) from rfl]
    rw [min_left_comm d c a]
    exact ih (min d a) c

theorem optMax_eq_maxFold (l : List ℤ) (a : ℤ) (h : ∀ c ∈ l, a < c) (hne : l ≠ []) :
    optMax l = some (maxFold l a) := by
  induction l with
  | nil => exact absurd rfl hne
  | cons c t ih =>
    cases hm : optMax t with
    | none =>
      have ht : t = [] := (optMax_none_iff t).1 hm
      subst ht
      have hc : a < c := h c (List.mem_cons_self c [])
      simp only [optMax]
      rw [show maxFold [c] a = max c a from rfl]
      rw [max_eq_left (le_of_lt hc)]
    | some m =>
      have ht : t ≠ [] := by
        intro h0
        rw [h0] at hm
        simp [optMax] at hm
      have ih2 := ih (fun x hx => h x (List.mem_cons_of_mem c hx)) ht
      rw [hm] at ih2
      have hme : m = maxFold t a := by
        injection ih2
      have h1 : optMax (c :: t) = some (max c m) := by
        simp [optMax, hm]
      rw [h1, hme]
      rw [show maxFold (c :: t) a = maxFold t (max c a) from rfl, maxFold_swap t a c]

theorem optMin_eq_minFold (l : List ℤ) (a : ℤ) (h : ∀ c ∈ l, c < a) (hne : l ≠ []) :
    optMin l = some (minFold l a) := by
  induction l with
  | nil => exact absurd rfl hne
  | cons c t ih =>
    cases hm : optMin t with
    | none =>
      have ht : t = [] := (optMin_none_iff t).1 hm
      subst ht
      have hc : c < a := h c (List.mem_cons_self c [])
      simp only [optMin]
      rw [show minFold [c] a = min c a from rfl]
      rw [min_eq_left (le_of_lt hc)]
    | some m =>
      have ht : t ≠ [] := by
        intro h0
        rw [h0] at hm
        simp [optMin] at hm
      have ih2 := ih (fun x hx => h x (List.mem_cons_of_mem c hx)) ht
      rw [hm] at ih2
      have hme : m = minFold t a := by
        injection ih2
      have h1 : optMin (c :: t) = some (min c m) := by
        simp [optMin, hm]
      rw [h1, hme]
      rw [show minFold (c :: t) a = minFold t (min c a) from rfl, minFold_swap t a c]

/-- `optMax` returns a member that bounds every member from above. -/
theorem optMax_spec (l : List ℤ) (m : ℤ) (h : optMax l = some m) :
    m ∈ l ∧ ∀ c ∈ l, c ≤ m := by
  induction l generalizing m with
  | nil => simp [optMax] at h
  | cons c t ih =>
    cases hm : optMax t with
    | none =>
      have ht : t = [] := (optMax_none_iff t).1 hm
      subst ht
      simp only [optMax] at h
      have : m = c := by injection h; omega
      subst this
      exact ⟨List.mem_cons_self m [], by simp⟩
    | some m0 =>
      rw [show optMax (c :: t) = some (max c m0) from by simp [optMax, hm]] at h
      have hmm : m = max c m0 := by injection h; omega
      obtain ⟨hmem, hub⟩ := ih m0 hm
      subst hmm
      constructor
      · rcases max_choice c m0 with hc | hc <;> rw [hc]
        · exact List.mem_cons_self c t
        · exact List.mem_cons_of_mem c hmem
      · intro x hx
        rcases List.mem_cons.1 hx with h1 | h2
        · rw [h1]; exact le_max_left c m0
        · exact le_trans (hub x h2) (le_max_right c m0)

/-- `optMin` returns a member that bounds every member from below. -/
theorem optMin_spec (l : List ℤ) (m : ℤ) (h : optMin l = some m) :
    m ∈ l ∧ ∀ c ∈ l, m ≤ c := by
  induction l generalizing m with
  | nil => simp [optMin] at h
  | cons c t ih =>
    cases hm : optMin t with
    | none =>
      have ht : t = [] := (optMin_none_iff t).1 hm
      subst ht
      simp only [optMin] at h
      have : m = c := by injection h; omega
      subst this
      exact ⟨List.mem_cons_self m [], by simp⟩
    | some m0 =>
      rw [show optMin (c :: t) = some (min c m0) from by simp [optMin, hm]] at h
      have hmm : m = min c m0 := by injection h; omega
      obtain ⟨hmem, hub⟩ := ih m0 hm
      subst hmm
      constructor
      · rcases min_choice c m0 with hc | hc <;> rw [hc]
        · exact List.mem_cons_self c t
        · exact List.mem_cons_of_mem c hmem
      · intro x hx
        rcases List.mem_cons.1 hx with h1 | h2
        · rw [h1]; exact min_le_left c m0
        · exact le_trans (min_le_right c m0) (hub x h2)

theorem innerMax_eq (adj ph : ℤ) (ks : List EffectKeyframe) : ∀ a : ℤ,
    ks.foldl (fun key k => if k.time + adj < ph then max (k.time + adj) key else key) a
    = maxFold ((ks.map (fun k => k.time + adj)).filter (fun c => c < ph)) a := by
  induction ks with
  | nil => intro a; rfl
  | cons k t ih =>
    intro a
    simp only [List.foldl_cons, List.map_cons, List.filter_cons, decide_eq_true_eq]
    by_cases hc : k.time + adj < ph
    · rw [if_pos hc, if_pos hc]
      exact ih (max (k.time + adj) a)
    · rw [if_neg hc, if_neg hc]
      exact ih a

theorem prevFold_eq (env : Env) (fs : List EffectField) : ∀ a : ℤ,
    fs.foldl (fun key f =>
      f.keyframes.foldl (fun key k =>
        if k.time + (env.timeline_in - env.clip_in) < env.playhead
        then max (k.time + (env.timeline_in - env.clip_in)) key else key) key) a
    = maxFold (((allKeyframes fs).map
        (fun k => k.time + (env.timeline_in - env.clip_in))).filter
        (fun c => c < env.playhead)) a := by
  induction fs with
  | nil => intro a; rfl
  | cons f t ih =>
    intro a
    rw [List.foldl_cons]
    rw [innerMax_eq (env.timeline_in - env.clip_in) env.playhead f.keyframes a]
    rw [ih _]
    rw [show allKeyframes (f :: t) = f.keyframes ++ allKeyframes t from rfl]
    rw [List.map_append, List.filter_append, maxFold_append]

theorem prevKeyFold_eq (p : NodeIO) (env : Env) :
    prevKeyFold p env =
      maxFold ((convertedTimes p env).filter (fun c => c < env.playhead)) LONG_MIN :=
  prevFold_eq env p.fields LONG_MIN

theorem innerMin_eq (cin tin ph : ℤ) (ks : List EffectKeyframe) : ∀ a : ℤ,
    ks.foldl (fun key k =>
      if k.time - cin + tin > ph then min (k.time - cin + tin) key else key) a
    = minFold ((ks.map (fun k => k.time - cin + tin)).filter (fun c => ph < c)) a := by
  induction ks with
  | nil => intro a; rfl
  | cons k t ih =>
    intro a
    simp only [List.foldl_cons, List.map_cons, List.filter_cons, decide_eq_true_eq]
    by_cases hc : ph < k.time - cin + tin
    · rw [if_pos hc, if_pos hc]
      exact ih (min (k.time - cin + tin) a)
    · rw [if_neg hc, if_neg hc]
      exact ih a

theorem nextFold_eq (env : Env) (fs : List EffectField) : ∀ a : ℤ,
    fs.foldl (fun key f =>
      f.keyframes.foldl (fun key k =>
        if k.time - env.clip_in + env.timeline_in > env.playhead
        then min (k.time - env.clip_in + env.timeline_in) key else key) key) a
    = minFold (((allKeyframes fs).map
        (fun k => k.time - env.clip_in + env.timeline_in)).filter
        (fun c => env.playhead < c)) a := by
  induction fs with
  | nil => intro a; rfl
  | cons f t ih =>
    intro a
    rw [List.foldl_cons]
    rw [innerMin_eq env.clip_in env.timeline_in env.playhead f.keyframes a]
    rw [ih _]
    rw [show allKeyframes (f :: t) = f.keyframes ++ allKeyframes t from rfl]
    rw [List.map_append, List.filter_append, minFold_append]

/-- The two conversion formulas of the two loops agree:
`time - clip_in + timeline_in = time + (timeline_in - clip_in)`. -/
theorem conversion_comm (cin tin : ℤ) :
    (fun k : EffectKeyframe => k.time - cin + tin) =
    (fun k : EffectKeyframe => k.time + (tin - cin)) := by
  funext k
  ring

theorem nextKeyFold_eq (p : NodeIO) (env : Env) :
    nextKeyFold p env =
      minFold ((convertedTimes p env).filter (fun c => env.playhead < c)) LONG_MAX := by
  rw [show nextKeyFold p env = minFold (((allKeyframes p.fields).map
        (fun k => k.time - env.clip_in + env.timeline_in)).filter
        (fun c => env.playhead < c)) LONG_MAX from nextFold_eq env p.fields LONG_MAX]
  rw [conversion_comm env.clip_in env.timeline_in]
  rfl

/-- **C4**: `GoToPreviousKeyframe` seeks (returns `some`) exactly the maximum
keyframe time — converted to the sequence timeline by the clip's additive
offset `timeline_in() - clip_in()` and taken over all fields of the port —
that is strictly less than the current playhead, and is a no-op (`none`) when
no such keyframe exists; `GoToNextKeyframe` symmetrically seeks the minimum
converted time strictly greater than the playhead.  Both filters are strict,
so a keyframe whose converted time equals the playhead is excluded from both
searches.  (`optMax` / `optMin` are `none` exactly on the empty list and
otherwise return the list's maximum / minimum, `optMax_spec` /
`optMin_spec`.)  The hypotheses keep every converted time strictly between
the loop accumulators' `LONG_MIN` / `LONG_MAX` sentinels, which holds for
every realistic frame number. -/
theorem keyframe_navigation_spec (p : NodeIO) (env : Env)
    (hlo : ∀ c ∈ convertedTimes p env, LONG_MIN < c)
    (hhi : ∀ c ∈ convertedTimes p env, c < LONG_MAX) :
    goToPreviousKeyframe p env =
      optMax ((convertedTimes p env).filter (fun c => c < env.playhead)) ∧
    goToNextKeyframe p env =
      optMin ((convertedTimes p env).filter (fun c => env.playhead < c)) := by
  constructor
  · unfold goToPreviousKeyframe
    rw [prevKeyFold_eq p env]
    have hF : ∀ c ∈ (convertedTimes p env).filter (fun c => c < env.playhead), LONG_MIN < c :=
      fun c hc => hlo c (List.mem_filter.1 hc).1
    by_cases hFe : (convertedTimes p env).filter (fun c => c < env.playhead) = []
    · rw [hFe]
      simp [maxFold, optMax]
    · have hkey : maxFold ((convertedTimes p env).filter (fun c => c < env.playhead)) LONG_MIN ≠ LONG_MIN :=
        fun he => hFe ((maxFold_eq_init _ LONG_MIN hF).1 he)
      rw [if_pos hkey, optMax_eq_maxFold _ LONG_MIN hF hFe]
  · unfold goToNextKeyframe
    rw [nextKeyFold_eq p env]
    have hF : ∀ c ∈ (convertedTimes p env).filter (fun c => env.playhead < c), c < LONG_MAX :=
      fun c hc => hhi c (List.mem_filter.1 hc).1
    by_cases hFe : (convertedTimes p env).filter (fun c => env.playhead < c) = []
    · rw [hFe]
      simp [minFold, optMin]
    · have hkey : minFold ((convertedTimes p env).filter (fun c => env.playhead < c)) LONG_MAX ≠ LONG_MAX :=
        fun he => hFe ((minFold_eq_init _ LONG_MAX hF).1 he)
      rw [if_pos hkey, optMin_eq_minFold _ LONG_MAX hF hFe]

/-- The spec's tie-break example port: one field with keyframes at times 5,
10, 15 (zero clip offset). -/
def navPort : NodeIO :=
  ⟨[1], kInvalid, true, true, [⟨0, [⟨5, 1⟩, ⟨10, 2⟩, ⟨15, 3⟩], true⟩], []⟩

/-- The spec's tie-break example environment: playhead 10, zero offset. -/
def navEnv : Env :=
  ⟨10, 0, 0, false, true, 10⟩

/-- Witness for C4, the spec's own tie-break example: keyframes at converted
times 5, 10, 15 with playhead 10 — "previous" yields 5 and "next" yields 15;
10 itself is excluded from both. -/
theorem keyframe_navigation_spec_witness :
    (goToPreviousKeyframe navPort navEnv =
       optMax ((convertedTimes navPort navEnv).filter (fun c => c < navEnv.playhead)) ∧
     goToNextKeyframe navPort navEnv =
       optMin ((convertedTimes navPort navEnv).filter (fun c => navEnv.playhead < c))) ∧
    goToPreviousKeyframe navPort navEnv = some 5 ∧
    goToNextKeyframe navPort navEnv = some 15 :=
  ⟨keyframe_navigation_spec navPort navEnv (by decide) (by decide), by decide, by decide⟩

/-- The scan of `NodeIO::ToggleKeyframe` over one field's keyframes: the
indices `i` (starting from the given offset) whose converted time
`keyframes.at(i).time + adj` equals the playhead, in ascending order. -/
def matchIdxs (adj ph : ℤ) : List EffectKeyframe → ℕ → List ℕ
  | [], _ => []
  | k :: rest, i =>
    (if k.time + adj = ph then [i] else []) ++ matchIdxs adj ph rest (i + 1)

/-- The full scan of `NodeIO::ToggleKeyframe`: the `(key_fields,
key_field_index)` pairs, field-major, each field scanned in keyframe-index
order; fields are identified by their index (starting at the offset `j`). -/
def collectMatches (adj ph : ℤ) : List EffectField → ℕ → List (ℕ × ℕ)
  | [], _ => []
  | f :: rest, j =>
    (matchIdxs adj ph f.keyframes 0).map (fun i => (j, i)) ++
      collectMatches adj ph rest (j + 1)

/-- The pairs `ToggleKeyframe` caches for the port at the current playhead. -/
def toggleMatches (p : NodeIO) (env : Env) : List (ℕ × ℕ) :=
  collectMatches (env.timeline_in - env.clip_in) env.playhead p.fields 0

/-- The insertion step of `ToggleKeyframe`'s reverse sort: scan the sorted
list for the first entry whose keyframe index is strictly smaller and insert
before it, else append. -/
def insertDesc (x : ℕ × ℕ) : List (ℕ × ℕ) → List (ℕ × ℕ)
  | [] => [x]
  | y :: rest => if y.2 < x.2 then x :: y :: rest else y :: insertDesc x rest

/-- `ToggleKeyframe`'s reverse sort of the cached pairs (the
`sorted_key_fields` / `sorted_key_field_index` loop). -/
def sortDesc (l : List (ℕ × ℕ)) : List (ℕ × ℕ) :=
  l.foldl (fun acc x => insertDesc x acc) []

/-- Apply a function to the field stored at an index of a field list. -/
def putField : List EffectField → ℕ → (EffectField → EffectField) → List EffectField
  | [], _, _ => []
  | f :: rest, 0, g => g f :: rest
  | f :: rest, j + 1, g => f :: putField rest j g

/-- Modelled from the spec: the `KeyframeDelete(field, index)` command —
executed when the `ComboAction` is pushed — removes the keyframe at the
given index from the given field (index-based removal). -/
def applyKeyframeDelete (fs : List EffectField) (x : ℕ × ℕ) : List EffectField :=
  putField fs x.1 (fun f => { f with keyframes := f.keyframes.eraseIdx x.2 })

/-- Execute a list of keyframe deletions in order. -/
def applyDeletes (fs : List EffectField) (ps : List (ℕ × ℕ)) : List EffectField :=
  ps.foldl applyKeyframeDelete fs

/-- Fold of index-based removals over one keyframe list. -/
def eraseFold (kfs : List EffectKeyframe) (ds : List ℕ) : List EffectKeyframe :=
  ds.foldl (fun l i => l.eraseIdx i) kfs

/-- `NodeIO::ToggleKeyframe`: scan all fields for keyframes at the converted
playhead time; if none, create a keyframe on every field via
`SetKeyframeOnAllFields` (each field executes `SetValueAt(Now,
GetValueAt(Now))` and one `KeyframeDataChange` is recorded per field); if
some, sort the cached `(field, index)` pairs by descending keyframe index
and append one `KeyframeDelete` per pair; either way exactly one
`ComboAction` is pushed onto the undo stack. -/
def toggleKeyframe (p : NodeIO) (env : Env) (journal : List (List RCmd)) :
    NodeIO × List (List RCmd) :=
  let ms := toggleMatches p env
  if ms.isEmpty then
    let newFields := p.fields.map (fun f =>
      setValueAt f p.keyframing env.now (getValueAt f p.keyframing env.now))
    let p2 := { p with fields := newFields }
    let ca := (List.range p.fields.length).map (fun i => RCmd.keyframeDataChange i)
    (p2, journal ++ [ca])
  else
    let sorted := sortDesc ms
    let ca := sorted.map (fun x => RCmd.keyframeDelete x.1 x.2)
    ({ p with fields := applyDeletes p.fields sorted }, journal ++ [ca])

theorem putField_length (g : EffectField → EffectField) :
    ∀ (fs : List EffectField) (n : ℕ), (putField fs n g).length = fs.length := by
  intro fs
  induction fs with
  | nil => intro n; rfl
  | cons f rest ih =>
    intro n
    cases n with
    | zero => rfl
    | succ m => simp [putField, ih m]

theorem putField_getD_ne (g : EffectField → EffectField) (d : EffectField) :
    ∀ (fs : List EffectField) (n j : ℕ), n ≠ j →
      (putField fs n g).getD j d = fs.getD j d := by
  intro fs
  induction fs with
  | nil => intro n j _; cases n <;> rfl
  | cons f rest ih =>
    intro n j hne
    cases n with
    | zero =>
      cases j with
      | zero => exact absurd rfl hne
      | succ jj => rfl
    | succ m =>
      cases j with
      | zero => rfl
      | succ jj => exact ih m jj (fun h => hne (by rw [h]))

theorem putField_getD_eq (g : EffectField → EffectField) (d : EffectField) :
    ∀ (fs : List EffectField) (j : ℕ), j < fs.length →
      (putField fs j g).getD j d = g (fs.getD j d) := by
  intro fs
  induction fs with
  | nil => intro j hj; simp at hj
  | cons f rest ih =>
    intro j hj
    cases j with
    | zero => rfl
    | succ jj => exact ih jj (by simpa using hj)

theorem getD_map (h : EffectField → EffectField) (d : EffectField) :
    ∀ (fs : List EffectField) (j : ℕ), j < fs.length →
      (fs.map h).getD j d = h (fs.getD j d) := by
  intro fs
  induction fs with
  | nil => intro j hj; simp at hj
  | cons f rest ih =>
    intro j hj
    cases j with
    | zero => rfl
    | succ jj => exact ih jj (by simpa using hj)

theorem applyDeletes_length (ps : List (ℕ × ℕ)) :
    ∀ fs : List EffectField, (applyDeletes fs ps).length = fs.length := by
  induction ps with
  | nil => intro fs; rfl
  | cons x rest ih =>
    intro fs
    rw [show applyDeletes fs (x :: rest) = applyDeletes (applyKeyframeDelete fs x) rest from rfl]
    rw [ih (applyKeyframeDelete fs x)]
    exact putField_length _ fs x.1

theorem applyDeletes_getD (d : EffectField) (ps : List (ℕ × ℕ)) :
    ∀ (fs : List EffectField) (j : ℕ), j < fs.length →
      (applyDeletes fs ps).getD j d =
        { fs.getD j d with keyframes := eraseFold (fs.getD j d).keyframes ((ps.filter (fun x => x.1 = j)).map Prod.snd) } := by
  induction ps with
  | nil =>
    intro fs j _
    rfl
  | cons x rest ih =>
    intro fs j hj
    rw [show applyDeletes fs (x :: rest) = applyDeletes (applyKeyframeDelete fs x) rest from rfl]
    have hlen : j < (applyKeyframeDelete fs x).length := by
      rw [show (applyKeyframeDelete fs x).length = fs.length from putField_length _ fs x.1]
      exact hj
    rw [ih (applyKeyframeDelete fs x) j hlen]
    by_cases hx : x.1 = j
    · rw [show applyKeyframeDelete fs x =
          putField fs x.1 (fun f => { f with keyframes := f.keyframes.eraseIdx x.2 }) from rfl]
      rw [hx, putField_getD_eq _ d fs j hj]
      simp only [List.filter_cons]
      rw [if_pos (by simp [hx])]
      rfl
    · rw [show applyKeyframeDelete fs x =
          putField fs x.1 (fun f => { f with keyframes := f.keyframes.eraseIdx x.2 }) from rfl]
      rw [putField_getD_ne _ d fs x.1 j hx]
      simp only [List.filter_cons]
      rw [if_neg (by simp [hx])]

theorem insertDesc_perm (x : ℕ × ℕ) : ∀ l : List (ℕ × ℕ), (insertDesc x l).Perm (x :: l) := by
  intro l
  induction l with
  | nil => exact List.Perm.refl _
  | cons y rest ih =>
    rw [show insertDesc x (y :: rest) =
        if y.2 < x.2 then x :: y :: rest else y :: insertDesc x rest from rfl]
    split_ifs
    · exact List.Perm.refl _
    · exact List.Perm.trans (List.Perm.cons y ih) (List.Perm.swap x y rest)

theorem sortDescAux_perm : ∀ (l acc : List (ℕ × ℕ)),
    (l.foldl (fun a x => insertDesc x a) acc).Perm (l ++ acc) := by
  intro l
  induction l with
  | nil => intro acc; exact List.Perm.refl _
  | cons x rest ih =>
    intro acc
    rw [List.foldl_cons]
    have h1 := ih (insertDesc x acc)
    have h2 : (rest ++ insertDesc x acc).Perm (rest ++ (x :: acc)) :=
      List.Perm.append_left rest (insertDesc_perm x acc)
    have h3 : (rest ++ (x :: acc)).Perm (x :: (rest ++ acc)) := List.perm_middle
    exact h1.trans (h2.trans h3)

theorem sortDesc_perm (l : List (ℕ × ℕ)) : (sortDesc l).Perm l := by
  have h := sortDescAux_perm l []
  rw [List.append_nil] at h
  exact h

theorem insertDesc_mem (x y : ℕ × ℕ) (l : List (ℕ × ℕ)) (h : y ∈ insertDesc x l) :
    y = x ∨ y ∈ l := by
  have hp := (insertDesc_perm x l).mem_iff.1 h
  simpa using hp

theorem insertDesc_pairwise (x : ℕ × ℕ) : ∀ l : List (ℕ × ℕ),
    List.Pairwise (fun a b : ℕ × ℕ => b.2 ≤ a.2) l →
    List.Pairwise (fun a b : ℕ × ℕ => b.2 ≤ a.2) (insertDesc x l) := by
  intro l
  induction l with
  | nil => intro _; exact List.pairwise_singleton _ x
  | cons y rest ih =>
    intro hp
    obtain ⟨hy, hrest⟩ := List.pairwise_cons.1 hp
    rw [show insertDesc x (y :: rest) =
        if y.2 < x.2 then x :: y :: rest else y :: insertDesc x rest from rfl]
    split_ifs with hlt
    · refine List.pairwise_cons.2 ⟨?_, hp⟩
      intro z hz
      rcases List.mem_cons.1 hz with h1 | h2
      · rw [h1]; exact le_of_lt hlt
      · exact le_trans (hy z h2) (le_of_lt hlt)
    · refine List.pairwise_cons.2 ⟨?_, ih hrest⟩
      intro z hz
      rcases insertDesc_mem x z rest hz with h1 | h2
      · rw [h1]; exact not_lt.1 hlt
      · exact hy z h2

theorem sortDescAux_pairwise : ∀ (l acc : List (ℕ × ℕ)),
    List.Pairwise (fun a b : ℕ × ℕ => b.2 ≤ a.2) acc →
    List.Pairwise (fun a b : ℕ × ℕ => b.2 ≤ a.2) (l.foldl (fun a x => insertDesc x a) acc) := by
  intro l
  induction l with
  | nil => intro acc h; exact h
  | cons x rest ih =>
    intro acc h
    rw [List.foldl_cons]
    exact ih (insertDesc x acc) (insertDesc_pairwise x acc h)

/-- The reverse sort of `ToggleKeyframe` produces keyframe indices in
(globally, hence per field) descending order. -/
theorem sortDesc_pairwise (l : List (ℕ × ℕ)) :
    List.Pairwise (fun a b : ℕ × ℕ => b.2 ≤ a.2) (sortDesc l) :=
  sortDescAux_pairwise l [] (by simp)

theorem matchIdxs_ge (adj ph : ℤ) : ∀ (ks : List EffectKeyframe) (i x : ℕ),
    x ∈ matchIdxs adj ph ks i → i ≤ x := by
  intro ks
  induction ks with
  | nil => intro i x hx; cases hx
  | cons k rest ih =>
    intro i x hx
    rw [show matchIdxs adj ph (k :: rest) i =
        (if k.time + adj = ph then [i] else []) ++ matchIdxs adj ph rest (i + 1) from rfl] at hx
    rcases List.mem_append.1 hx with h1 | h2
    · split_ifs at h1 with hc
      · have : x = i := by simpa using h1
        omega
      · cases h1
    · have := ih (i + 1) x h2
      omega

theorem matchIdxs_sorted (adj ph : ℤ) : ∀ (ks : List EffectKeyframe) (i : ℕ),
    List.Pairwise (fun a b : ℕ => a < b) (matchIdxs adj ph ks i) := by
  intro ks
  induction ks with
  | nil => intro i; simp [matchIdxs]
  | cons k rest ih =>
    intro i
    rw [show matchIdxs adj ph (k :: rest) i =
        (if k.time + adj = ph then [i] else []) ++ matchIdxs adj ph rest (i + 1) from rfl]
    split_ifs with hc
    · refine List.pairwise_cons.2 ⟨?_, ih (i + 1)⟩
      intro x hx
      have := matchIdxs_ge adj ph rest (i + 1) x hx
      omega
    · rw [List.nil_append]
      exact ih (i + 1)

theorem matchIdxs_succ (adj ph : ℤ) : ∀ (ks : List EffectKeyframe) (i : ℕ),
    matchIdxs adj ph ks (i + 1) = (matchIdxs adj ph ks i).map (fun n => n + 1) := by
  intro ks
  induction ks with
  | nil => intro i; rfl
  | cons k rest ih =>
    intro i
    rw [show matchIdxs adj ph (k :: rest) (i + 1) =
        (if k.time + adj = ph then [i + 1] else []) ++ matchIdxs adj ph rest (i + 2) from rfl]
    rw [show matchIdxs adj ph (k :: rest) i =
        (if k.time + adj = ph then [i] else []) ++ matchIdxs adj ph rest (i + 1) from rfl]
    rw [List.map_append, ih (i + 1)]
    split_ifs <;> rfl

theorem collectMatches_ge (adj ph : ℤ) : ∀ (fs : List EffectField) (j0 : ℕ) (x : ℕ × ℕ),
    x ∈ collectMatches adj ph fs j0 → j0 ≤ x.1 := by
  intro fs
  induction fs with
  | nil => intro j0 x hx; cases hx
  | cons f rest ih =>
    intro j0 x hx
    rw [show collectMatches adj ph (f :: rest) j0 =
        (matchIdxs adj ph f.keyframes 0).map (fun i => (j0, i)) ++
          collectMatches adj ph rest (j0 + 1) from rfl] at hx
    rcases List.mem_append.1 hx with h1 | h2
    · obtain ⟨i, _, hi2⟩ := List.mem_map.1 h1
      rw [← hi2]
    · have := ih (j0 + 1) x h2
      omega

theorem collectMatches_filter (adj ph : ℤ) (d : EffectField) :
    ∀ (fs : List EffectField) (j0 j : ℕ), j < fs.length →
      (collectMatches adj ph fs j0).filter (fun x => x.1 = j0 + j) =
        (matchIdxs adj ph ((fs.getD j d).keyframes) 0).map (fun i => (j0 + j, i)) := by
  intro fs
  induction fs with
  | nil =>
    intro j0 j hj
    simp at hj
  | cons f rest ih =>
    intro j0 j hj
    rw [show collectMatches adj ph (f :: rest) j0 =
        (matchIdxs adj ph f.keyframes 0).map (fun i => (j0, i)) ++
          collectMatches adj ph rest (j0 + 1) from rfl]
    rw [List.filter_append]
    cases j with
    | zero =>
      have h1 : ((matchIdxs adj ph f.keyframes 0).map (fun i => (j0, i))).filter
          (fun x => x.1 = j0 + 0) = (matchIdxs adj ph f.keyframes 0).map (fun i => (j0, i)) := by
        apply List.filter_eq_self.2
        intro a ha
        obtain ⟨i, _, hi2⟩ := List.mem_map.1 ha
        rw [← hi2]
        simp
      have h2 : (collectMatches adj ph rest (j0 + 1)).filter (fun x => x.1 = j0 + 0) = [] := by
        apply List.filter_eq_nil.2
        intro a ha
        have := collectMatches_ge adj ph rest (j0 + 1) a ha
        simp
        omega
      rw [h1, h2, List.append_nil]
      rfl
    | succ jj =>
      have h1 : ((matchIdxs adj ph f.keyframes 0).map (fun i => (j0, i))).filter
          (fun x => x.1 = j0 + (jj + 1)) = [] := by
        apply List.filter_eq_nil.2
        intro a ha
        obtain ⟨i, _, hi2⟩ := List.mem_map.1 ha
        rw [← hi2]
        simp
      have h2 := ih (j0 + 1) jj (by simpa using hj)
      rw [h1, List.nil_append]
      rw [show j0 + (jj + 1) = (j0 + 1) + jj from by omega]
      rw [h2]
      rfl

theorem eraseFold_append (kfs : List EffectKeyframe) (x y : List ℕ) :
    eraseFold kfs (x ++ y) = eraseFold (eraseFold kfs x) y := by
  simp [eraseFold, List.foldl_append]

theorem eraseFold_map_succ (k : EffectKeyframe) : ∀ (ds : List ℕ) (kfs : List EffectKeyframe),
    eraseFold (k :: kfs) (ds.map (fun n => n + 1)) = k :: eraseFold kfs ds := by
  intro ds
  induction ds with
  | nil => intro kfs; rfl
  | cons i rest ih =>
    intro kfs
    rw [List.map_cons]
    rw [show eraseFold (k :: kfs) ((i + 1) :: rest.map (fun n => n + 1)) =
        eraseFold ((k :: kfs).eraseIdx (i + 1)) (rest.map (fun n => n + 1)) from rfl]
    rw [show (k :: kfs).eraseIdx (i + 1) = k :: kfs.eraseIdx i from rfl]
    exact ih (kfs.eraseIdx i)

/-- Removing a keyframe list's matching positions by index in descending
order deletes exactly the keyframes at the matched converted time. -/
theorem eraseFold_reverse_matchIdxs (adj ph : ℤ) : ∀ kfs : List EffectKeyframe,
    eraseFold kfs (matchIdxs adj ph kfs 0).reverse =
      kfs.filter (fun k => ¬(k.time + adj = ph)) := by
  intro kfs
  induction kfs with
  | nil => rfl
  | cons k rest ih =>
    rw [show matchIdxs adj ph (k :: rest) 0 =
        (if k.time + adj = ph then [0] else []) ++ matchIdxs adj ph rest 1 from rfl]
    have hms : matchIdxs adj ph rest 1 = (matchIdxs adj ph rest 0).map (fun n => n + 1) :=
      matchIdxs_succ adj ph rest 0
    rw [hms, List.reverse_append]
    have hrm : ((matchIdxs adj ph rest 0).map (fun n => n + 1)).reverse =
        ((matchIdxs adj ph rest 0).reverse).map (fun n => n + 1) := by
      simp
    rw [hrm]
    by_cases hc : k.time + adj = ph
    · rw [if_pos hc]
      rw [show ([0] : List ℕ).reverse = [0] from rfl]
      rw [eraseFold_append, eraseFold_map_succ k _ rest, ih]
      rw [show eraseFold (k :: rest.filter (fun x => ¬(x.time + adj = ph))) [0] =
          rest.filter (fun x => ¬(x.time + adj = ph)) from rfl]
      rw [List.filter_cons, if_neg (by simp [hc])]
    · rw [if_neg hc]
      rw [show ([] : List ℕ).reverse = [] from rfl, List.append_nil]
      rw [eraseFold_map_succ k _ rest, ih]
      rw [List.filter_cons, if_pos (by simp [hc])]

/-- The keyframe deletions of `ToggleKeyframe` that target field `j`, in the
order the sorted transaction applies them, are exactly the field's matching
indices in descending order. -/
theorem sorted_filter_eq (adj ph : ℤ) (d : EffectField) (fs : List EffectField) (j : ℕ)
    (hj : j < fs.length) :
    (((sortDesc (collectMatches adj ph fs 0)).filter (fun x => x.1 = j)).map Prod.snd) =
      (matchIdxs adj ph ((fs.getD j d).keyframes) 0).reverse := by
  have hfe : (collectMatches adj ph fs 0).filter (fun x => x.1 = j) =
      (matchIdxs adj ph ((fs.getD j d).keyframes) 0).map (fun i => (j, i)) := by
    have h0 := collectMatches_filter adj ph d fs 0 j hj
    rw [Nat.zero_add] at h0
    exact h0
  have hperm0 : ((sortDesc (collectMatches adj ph fs 0)).filter (fun x => x.1 = j)).Perm
      ((matchIdxs adj ph ((fs.getD j d).keyframes) 0).map (fun i => (j, i))) := by
    rw [← hfe]
    exact (sortDesc_perm _).filter _
  have hsnd : ((matchIdxs adj ph ((fs.getD j d).keyframes) 0).map
      (fun i => (j, i))).map Prod.snd = matchIdxs adj ph ((fs.getD j d).keyframes) 0 := by
    simp [List.map_map]
  have hperm : ((((sortDesc (collectMatches adj ph fs 0)).filter
      (fun x => x.1 = j)).map Prod.snd)).Perm
      ((matchIdxs adj ph ((fs.getD j d).keyframes) 0).reverse) := by
    refine (hperm0.map Prod.snd).trans ?_
    rw [hsnd]
    exact (List.reverse_perm _).symm
  have hs1 : List.Pairwise (fun a b : ℕ => b ≤ a)
      (((sortDesc (collectMatches adj ph fs 0)).filter (fun x => x.1 = j)).map Prod.snd) := by
    rw [List.pairwise_map]
    exact List.Pairwise.sublist (List.filter_sublist _) (sortDesc_pairwise _)
  have hs2 : List.Pairwise (fun a b : ℕ => b ≤ a)
      ((matchIdxs adj ph ((fs.getD j d).keyframes) 0).reverse) := by
    rw [List.pairwise_reverse]
    exact (matchIdxs_sorted adj ph ((fs.getD j d).keyframes) 0).imp (fun h => le_of_lt h)
  haveI : IsAntisymm ℕ (fun a b : ℕ => b ≤ a) := ⟨fun a b h1 h2 => le_antisymm h2 h1⟩
  exact List.eq_of_perm_of_sorted hperm hs1 hs2

/-- `SetValueAt` at a time with the same value materializes that keyframe. -/
theorem insertKeyframe_mem (t v : ℤ) : ∀ kfs : List EffectKeyframe,
    (⟨t, v⟩ : EffectKeyframe) ∈ insertKeyframe kfs t v := by
  intro kfs
  induction kfs with
  | nil => exact List.mem_singleton.2 rfl
  | cons k rest ih =>
    rw [show insertKeyframe (k :: rest) t v =
        if t < k.time then ⟨t, v⟩ :: k :: rest
        else if t = k.time then ⟨t, v⟩ :: rest
        else k :: insertKeyframe rest t v from rfl]
    split_ifs
    · exact List.mem_cons_self _ _
    · exact List.mem_cons_self _ _
    · exact List.mem_cons_of_mem k ih

/-- **C5**: `ToggleKeyframe` at the playhead, on a keyframing port.  If no
field has a keyframe whose converted time (`time + (timeline_in - clip_in)`)
equals the playhead, it creates one keyframe on every field — each field
executes `SetValueAt(Now, GetValueAt(Now))`, so the field has a keyframe at
the current time carrying the value at the current time — and pushes exactly
one transaction (one `KeyframeDataChange` per field).  If at least one field
has one, it pushes exactly one transaction holding one `KeyframeDelete` per
cached `(field, index)` pair — a permutation of all matches, ordered by
descending keyframe index (globally, hence per field) — whose execution
deletes from every field exactly the keyframes at that converted time and
leaves every static value unchanged. -/
theorem toggle_keyframe_spec (p : NodeIO) (env : Env) (journal : List (List RCmd)) (j : ℕ)
    (hk : p.keyframing = true) (hj : j < p.fields.length) :
    (toggleMatches p env = [] →
      (toggleKeyframe p env journal).2 = journal ++
        [(List.range p.fields.length).map (fun i => RCmd.keyframeDataChange i)] ∧
      (toggleKeyframe p env journal).1.fields.length = p.fields.length ∧
      (toggleKeyframe p env journal).1.fields.getD j default =
        setValueAt (p.fields.getD j default) true env.now
          (getValueAt (p.fields.getD j default) true env.now) ∧
      (⟨env.now, getValueAt (p.fields.getD j default) true env.now⟩ : EffectKeyframe) ∈
        ((toggleKeyframe p env journal).1.fields.getD j default).keyframes) ∧
    (toggleMatches p env ≠ [] →
      (toggleKeyframe p env journal).2 = journal ++
        [(sortDesc (toggleMatches p env)).map (fun x => RCmd.keyframeDelete x.1 x.2)] ∧
      (sortDesc (toggleMatches p env)).Perm (toggleMatches p env) ∧
      List.Pairwise (fun x y : ℕ × ℕ => y.2 ≤ x.2) (sortDesc (toggleMatches p env)) ∧
      (toggleKeyframe p env journal).1.fields.length = p.fields.length ∧
      ((toggleKeyframe p env journal).1.fields.getD j default).keyframes =
        (p.fields.getD j default).keyframes.filter
          (fun k => ¬(k.time + (env.timeline_in - env.clip_in) = env.playhead)) ∧
      ((toggleKeyframe p env journal).1.fields.getD j default).static_value =
        (p.fields.getD j default).static_value) := by
  constructor
  · intro hms
    have heq : toggleKeyframe p env journal =
        ({ p with fields := p.fields.map (fun f =>
            setValueAt f p.keyframing env.now (getValueAt f p.keyframing env.now)) },
         journal ++ [(List.range p.fields.length).map (fun i => RCmd.keyframeDataChange i)]) := by
      simp only [toggleKeyframe]
      rw [hms]
      rfl
    refine ⟨?_, ?_, ?_, ?_⟩
    · rw [heq]
    · rw [heq]
      simp
    · rw [heq]
      show (p.fields.map (fun f =>
          setValueAt f p.keyframing env.now (getValueAt f p.keyframing env.now))).getD j default = _
      rw [getD_map _ default p.fields j hj, hk]
    · rw [heq]
      show _ ∈ ((p.fields.map (fun f =>
          setValueAt f p.keyframing env.now (getValueAt f p.keyframing env.now))).getD j default).keyframes
      rw [getD_map _ default p.fields j hj, hk]
      exact insertKeyframe_mem env.now
        (getValueAt (p.fields.getD j default) true env.now) (p.fields.getD j default).keyframes
  · intro hms
    have hempty : (toggleMatches p env).isEmpty = false := by
      cases hc : toggleMatches p env with
      | nil => exact absurd hc hms
      | cons a l => rfl
    have heq : toggleKeyframe p env journal =
        ({ p with fields := applyDeletes p.fields (sortDesc (toggleMatches p env)) },
         journal ++ [(sortDesc (toggleMatches p env)).map
           (fun x => RCmd.keyframeDelete x.1 x.2)]) := by
      simp only [toggleKeyframe]
      rw [hempty]
      rfl
    refine ⟨?_, sortDesc_perm _, sortDesc_pairwise _, ?_, ?_, ?_⟩
    · rw [heq]
    · rw [heq]
      show (applyDeletes p.fields (sortDesc (toggleMatches p env))).length = p.fields.length
      exact applyDeletes_length _ p.fields
    · rw [heq]
      show ((applyDeletes p.fields (sortDesc (toggleMatches p env))).getD j default).keyframes = _
      rw [applyDeletes_getD default (sortDesc (toggleMatches p env)) p.fields j hj]
      show eraseFold (p.fields.getD j default).keyframes
        (((sortDesc (toggleMatches p env)).filter (fun x => x.1 = j)).map Prod.snd) = _
      rw [show toggleMatches p env =
          collectMatches (env.timeline_in - env.clip_in) env.playhead p.fields 0 from rfl]
      rw [sorted_filter_eq (env.timeline_in - env.clip_in) env.playhead default p.fields j hj]
      exact eraseFold_reverse_matchIdxs (env.timeline_in - env.clip_in) env.playhead
        (p.fields.getD j default).keyframes
    · rw [heq]
      show ((applyDeletes p.fields (sortDesc (toggleMatches p env))).getD j default).static_value = _
      rw [applyDeletes_getD default (sortDesc (toggleMatches p env)) p.fields j hj]

/-- Toggle example port: two fields, keyframes at times 5 and 10 on field 0
and at time 10 on field 1, keyframing enabled. -/
def togglePort : NodeIO :=
  ⟨[1], kInvalid, true, true, [⟨0, [⟨5, 1⟩, ⟨10, 2⟩], true⟩, ⟨0, [⟨10, 4⟩], true⟩], []⟩

/-- Toggle example environment: playhead 10, zero offset, current time 10. -/
def toggleEnv : Env :=
  ⟨10, 0, 0, false, true, 10⟩

/-- Witness for C5: with keyframes at the playhead on both fields, the
delete branch pushes one transaction with the removals in descending index
order, and afterwards field 0 keeps only its keyframe at time 5 and field 1
is empty. -/
theorem toggle_keyframe_spec_witness :
    ((toggleMatches togglePort toggleEnv = [] →
      (toggleKeyframe togglePort toggleEnv []).2 = [] ++
        [(List.range togglePort.fields.length).map (fun i => RCmd.keyframeDataChange i)] ∧
      (toggleKeyframe togglePort toggleEnv []).1.fields.length = togglePort.fields.length ∧
      (toggleKeyframe togglePort toggleEnv []).1.fields.getD 0 default =
        setValueAt (togglePort.fields.getD 0 default) true toggleEnv.now
          (getValueAt (togglePort.fields.getD 0 default) true toggleEnv.now) ∧
      (⟨toggleEnv.now, getValueAt (togglePort.fields.getD 0 default) true toggleEnv.now⟩ :
          EffectKeyframe) ∈
        ((toggleKeyframe togglePort toggleEnv []).1.fields.getD 0 default).keyframes) ∧
    (toggleMatches togglePort toggleEnv ≠ [] →
      (toggleKeyframe togglePort toggleEnv []).2 = [] ++
        [(sortDesc (toggleMatches togglePort toggleEnv)).map
          (fun x => RCmd.keyframeDelete x.1 x.2)] ∧
      (sortDesc (toggleMatches togglePort toggleEnv)).Perm (toggleMatches togglePort toggleEnv) ∧
      List.Pairwise (fun x y : ℕ × ℕ => y.2 ≤ x.2)
        (sortDesc (toggleMatches togglePort toggleEnv)) ∧
      (toggleKeyframe togglePort toggleEnv []).1.fields.length = togglePort.fields.length ∧
      ((toggleKeyframe togglePort toggleEnv []).1.fields.getD 0 default).keyframes =
        (togglePort.fields.getD 0 default).keyframes.filter
          (fun k => ¬(k.time + (toggleEnv.timeline_in - toggleEnv.clip_in) = toggleEnv.playhead)) ∧
      ((toggleKeyframe togglePort toggleEnv []).1.fields.getD 0 default).static_value =
        (togglePort.fields.getD 0 default).static_value)) ∧
    toggleMatches togglePort toggleEnv = [(0, 1), (1, 0)] ∧
    (toggleKeyframe togglePort toggleEnv []).2 =
      [[RCmd.keyframeDelete 0 1, RCmd.keyframeDelete 1 0]] ∧
    ((toggleKeyframe togglePort toggleEnv []).1.fields.map (fun f => f.keyframes)) =
      [[⟨5, 1⟩], []] :=
  ⟨toggle_keyframe_spec togglePort toggleEnv [] 0 rfl (by decide),
   by decide, by decide, by decide⟩
